import Mathlib

/-!
# Verification of the sensitive-data detection pipeline

Shallow embedding of the core detection-to-redaction pipeline of the
repository (YOLOv8 detector geometry and NMS, adaptive blur redactor,
reference-face matcher, and the detection endpoint glue), together with
theorems settling the specification claims about it.

Numeric conventions: Python floats are modelled as exact rationals (ℚ)
where the code is purely arithmetic, and as reals (ℝ) where the code uses
square roots or real powers (the radial blend mask and embedding
normalisation).  External library calls (`cv2.resize`, `cv2.GaussianBlur`,
`cv2.equalizeHist`, the ONNX `infer` call) are taken as function
parameters, since their code is not part of this repository.
-/

namespace SDD

/-- Python `int(...)` truncation toward zero on a rational. -/
def pyInt (q : ℚ) : ℤ := if q < 0 then ⌈q⌉ else ⌊q⌋

/-- A bounding box in corner form `(x, y, width, height)`, all rational
(the code stores floats). From `app/models/schemas.py` `BoundingBox`. -/
structure BoxQ where
  x : ℚ
  y : ℚ
  w : ℚ
  h : ℚ
deriving DecidableEq, Repr, Inhabited

/-- A detection: class name, confidence and box.
From `app/models/schemas.py` `Detection`. -/
structure Det where
  className : String
  confidence : ℚ
  bbox : BoxQ
deriving DecidableEq, Repr

/-! ## Detector geometry (`app/services/detector.py`) -/

/-- The letterbox transform data computed by `preprocess_image`:
`scale`, the padding offsets, and the resized dimensions. -/
structure Letterbox where
  scale : ℚ
  xOffset : ℤ
  yOffset : ℤ
  newW : ℤ
  newH : ℤ
deriving DecidableEq, Repr

/-- `scale = min(target_width / original_width, target_height / original_height)`
from `preprocess_image` (detector.py line 90). -/
def preprocessScale (tw th ow oh : ℕ) : ℚ :=
  min ((tw : ℚ) / (ow : ℚ)) ((th : ℚ) / (oh : ℚ))

/-- The letterbox transform produced by `preprocess_image`
(detector.py lines 90-101): `new_width = int(original_width * scale)`,
`new_height = int(original_height * scale)`,
`y_offset = (target_height - new_height) // 2`,
`x_offset = (target_width - new_width) // 2`.
The integer divisions operate on non-negative values (see
`newW_le_target` below), where Python floor division and Lean `Int`
division agree. -/
def preprocessLetterbox (tw th ow oh : ℕ) : Letterbox :=
  let s := preprocessScale tw th ow oh
  let nw := pyInt ((ow : ℚ) * s)
  let nh := pyInt ((oh : ℚ) * s)
  { scale := s
    xOffset := ((tw : ℤ) - nw) / 2
    yOffset := ((th : ℤ) - nh) / 2
    newW := nw
    newH := nh }

/-- The padded canvas built by `preprocess_image` (detector.py lines 97-104):
a `target_height × target_width` buffer filled with the constant 128,
with the resized image written at the offset window.  The content of the
resized image is the external `cv2.resize` output, taken as the parameter
`resized`. -/
def preprocessCanvas (tw th ow oh : ℕ) (resized : ℕ → ℕ → ℚ) : ℕ → ℕ → ℚ :=
  let L := preprocessLetterbox tw th ow oh
  fun i j =>
    if L.yOffset ≤ (i : ℤ) ∧ (i : ℤ) < L.yOffset + L.newH ∧
       L.xOffset ≤ (j : ℤ) ∧ (j : ℤ) < L.xOffset + L.newW then
      resized (i - L.yOffset.toNat) (j - L.xOffset.toNat)
    else 128

/-- The inverse coordinate mapping performed by `postprocess_outputs`
(detector.py lines 138-152) on one candidate in network-space center form
`(cx, cy, w, h)`: subtract offsets, divide by scale, convert to corner
form, then clamp into the image bounds. -/
def fromNetworkSpace (cx cy w h : ℚ) (scale : ℚ) (xOff yOff : ℤ)
    (ow oh : ℕ) : BoxQ :=
  let cx1 := (cx - (xOff : ℚ)) / scale
  let cy1 := (cy - (yOff : ℚ)) / scale
  let w1 := w / scale
  let h1 := h / scale
  let x1 := cx1 - w1 / 2
  let y1 := cy1 - h1 / 2
  let x2 := max 0 (min x1 (ow : ℚ))
  let y2 := max 0 (min y1 (oh : ℚ))
  let w2 := min w1 ((ow : ℚ) - x2)
  let h2 := min h1 ((oh : ℚ) - y2)
  ⟨x2, y2, w2, h2⟩

/-- Modelled from the spec: the forward mapping of a corner-form box
`(x, y, w, h)` in original-image space into network space under the
letterbox transform (`toNetworkSpace` in spec section 4.1; the source only
letterboxes whole images, so the box-level forward map is the spec's
conceptual function).  It returns the box in network-space center form,
the form `postprocess_outputs` consumes. -/
def toNetworkSpace (x y w h : ℚ) (scale : ℚ) (xOff yOff : ℤ) : ℚ × ℚ × ℚ × ℚ :=
  ((x + w / 2) * scale + (xOff : ℚ), (y + h / 2) * scale + (yOff : ℚ),
    w * scale, h * scale)

/-- Round-trip of a box through the letterbox transform: forward into
network space, then back through the decoder's inverse mapping. -/
def roundTripBox (tw th ow oh : ℕ) (x y w h : ℚ) : BoxQ :=
  let L := preprocessLetterbox tw th ow oh
  match toNetworkSpace x y w h L.scale L.xOffset L.yOffset with
  | (cx, cy, nw, nh) => fromNetworkSpace cx cy nw nh L.scale L.xOffset L.yOffset ow oh

/-! ## Adaptive kernel size (`app/services/image_processor.py`) -/

/-- Python `round` on a float: round half to even (ties go to the
neighbour with even parity). -/
def roundHalfEven (q : ℚ) : ℤ :=
  if q - (⌊q⌋ : ℚ) < 1 / 2 then ⌊q⌋
  else if 1 / 2 < q - (⌊q⌋ : ℚ) then ⌊q⌋ + 1
  else if ⌊q⌋ % 2 = 0 then ⌊q⌋ else ⌊q⌋ + 1

/-- `_calculate_kernel_size` (image_processor.py lines 140-168): clamp
confidence to `[0,1]`, interpolate between the min and max kernel sizes,
round, force odd, then clamp into `[3, max(3, (min(w,h)//2)*2+1)]`. -/
def calculateKernelSize (confidence : ℚ) (regionWidth regionHeight : ℕ)
    (minKernel maxKernel : ℤ) : ℤ :=
  let c := max 0 (min 1 confidence)
  let scaled := (minKernel : ℚ) + ((maxKernel : ℚ) - (minKernel : ℚ)) * c
  let k0 := roundHalfEven scaled
  let k1 := if k0 % 2 = 0 then k0 + 1 else k0
  let maxRegionKernel := max 3 (((min regionWidth regionHeight : ℤ) / 2) * 2 + 1)
  max 3 (min k1 maxRegionKernel)

/-- The cap on the kernel imposed by the region size in the source:
`max(3, (min(w,h) // 2) * 2 + 1)` (image_processor.py line 165). -/
def regionKernelCap (regionWidth regionHeight : ℕ) : ℤ :=
  max 3 (((min regionWidth regionHeight : ℤ) / 2) * 2 + 1)

/-- Modelled from the spec: the cap the claim asserts, "the largest odd
integer ≤ min(regionWidth, regionHeight)". -/
def largestOddLE (m : ℕ) : ℤ :=
  if (m : ℤ) % 2 = 0 then (m : ℤ) - 1 else (m : ℤ)

/-! ## Non-maximum suppression (`app/services/detector.py` `_apply_nms`) -/

/-- Default detection used for out-of-range index lookups (never reached
on the index sets the code produces). -/
def defaultDet : Det := ⟨"", 0, ⟨0, 0, 0, 0⟩⟩

/-- Rectangle intersection area of two `(x, y, w, h)` boxes. -/
def interArea (a b : BoxQ) : ℚ :=
  max 0 (min (a.x + a.w) (b.x + b.w) - max a.x b.x) *
    max 0 (min (a.y + a.h) (b.y + b.h) - max a.y b.y)

/-- Intersection-over-union of two boxes. -/
def iouQ (a b : BoxQ) : ℚ :=
  interArea a b / (a.w * a.h + b.w * b.h - interArea a b)

/-- Greedy suppression pass over score-ordered indices: an index is kept
when its IoU with every previously kept box is strictly below the
threshold.  The accumulator holds the kept indices in processing
order. -/
def nmsGreedyIdx (boxes : List BoxQ) (thr : ℚ) : List ℕ → List ℕ → List ℕ
  | [], kept => kept
  | i :: rest, kept =>
    if kept.all (fun j => iouQ (boxes.getD j default) (boxes.getD i default) < thr) then
      nmsGreedyIdx boxes thr rest (kept ++ [i])
    else
      nmsGreedyIdx boxes thr rest kept

/-- Modelled from the spec: `cv2.dnn.NMSBoxes` is an external OpenCV
routine (its source is not part of this repository); the spec describes
it as "sort by confidence descending; greedily keep a candidate if its
IoU with every previously kept (higher-confidence) candidate is below the
threshold; ties are resolved by original stable order (earlier-decoded
wins)".  `mergeSort` is a stable sort, so equal scores keep their
original relative order.  Returns the kept indices in processing order. -/
def nmsBoxes (boxes : List BoxQ) (scores : List ℚ) (iouThreshold : ℚ) : List ℕ :=
  let order := (List.range boxes.length).mergeSort
    (fun i j => scores.getD j 0 ≤ scores.getD i 0)
  nmsGreedyIdx boxes iouThreshold order []

/-- `_apply_nms` (detector.py lines 168-199): collect the boxes and
scores of all detections (across all classes) into parallel arrays, run
NMS over the full candidate set, and return the surviving detections. -/
def applyNms (iouThreshold : ℚ) (dets : List Det) : List Det :=
  if dets = [] then dets
  else
    let boxes := dets.map (·.bbox)
    let scores := dets.map (·.confidence)
    let idxs := nmsBoxes boxes scores iouThreshold
    idxs.map (fun i => dets.getD i defaultDet)

/-- The claim's direct description of NMS on detections: process
candidates in confidence-descending order (stable on ties), keeping a
candidate exactly when its IoU with every previously kept candidate is
strictly below the threshold. -/
def nmsSpecGreedy (thr : ℚ) : List Det → List Det → List Det
  | [], kept => kept
  | d :: rest, kept =>
    if kept.all (fun k => iouQ k.bbox d.bbox < thr) then
      nmsSpecGreedy thr rest (kept ++ [d])
    else
      nmsSpecGreedy thr rest kept

/-- Modelled from the spec: full-candidate-set greedy NMS exactly as the
claim words it. -/
def nmsSpec (thr : ℚ) (dets : List Det) : List Det :=
  nmsSpecGreedy thr (dets.mergeSort (fun a b => b.confidence ≤ a.confidence)) []

/-! ## Output decoding and the detect flow (`detector.py`, `detection.py`) -/

/-- `class_names.get(class_id, f"class_{class_id}")` (detector.py lines
20-23 and 154). -/
def classNameOf (cid : ℤ) : String :=
  if cid = 0 then "face"
  else if cid = 1 then "license_plate"
  else "class_" ++ toString cid

/-- Decoding of one raw output row by `postprocess_outputs` (detector.py
lines 125-161): rows shorter than 6 entries are skipped, rows below the
confidence threshold are dropped, surviving rows are remapped through the
inverse letterbox transform and clamped. -/
def decodeRow (confThr : ℚ) (scale : ℚ) (xOff yOff : ℤ) (ow oh : ℕ)
    (row : List ℚ) : Option Det :=
  match row with
  | xc :: yc :: w :: h :: conf :: cid :: _ =>
    if confThr ≤ conf then
      some { className := classNameOf (pyInt cid)
             confidence := conf
             bbox := fromNetworkSpace xc yc w h scale xOff yOff ow oh }
    else none
  | _ => none

/-- `postprocess_outputs` (detector.py lines 113-166): decode every row,
then apply NMS. -/
def postprocessOutputs (confThr iouThr : ℚ) (scale : ℚ) (xOff yOff : ℤ)
    (ow oh : ℕ) (predictions : List (List ℚ)) : List Det :=
  applyNms iouThr (predictions.filterMap (decodeRow confThr scale xOff yOff ow oh))

/-- Errors surfaced by the detection flow.  `modelNotLoaded` is the
`RuntimeError("Model not loaded")` of `detect`; `processingFailure` is
the catch-all `RuntimeError("Detection failed: ...")`; `invalidImage` is
the HTTP 400 rejection the endpoint raises when `validate_image` (or
image loading) fails. -/
inductive DetectError where
  | invalidImage
  | modelNotLoaded
  | processingFailure
deriving DecidableEq

/-- The shape information of a numpy image array. -/
structure PyImage where
  shapeLen : ℕ
  height : ℕ
  width : ℕ
deriving DecidableEq

/-- `validate_image` (image_processor.py lines 271-282): `None` is
invalid, the array must be 2- or 3-dimensional, and both leading
dimensions must be at least 1. -/
def validateImage (image : Option PyImage) : Bool :=
  match image with
  | none => false
  | some img =>
    (img.shapeLen = 2 || img.shapeLen = 3) && 1 ≤ img.height && 1 ≤ img.width

/-- `detect` (detector.py lines 201-220): fail if no session is bound,
otherwise preprocess, run inference (an external black box that may
raise, modelled as an `Except`-valued parameter), and postprocess; any
exception in the `try` block becomes the catch-all processing failure. -/
def detect (session : Option (PyImage → Except Unit (List (List ℚ))))
    (confThr iouThr : ℚ) (tw th : ℕ) (image : PyImage) :
    Except DetectError (List Det) :=
  match session with
  | none => .error .modelNotLoaded
  | some infer =>
    match infer image with
    | .error _ => .error .processingFailure
    | .ok rows =>
      let L := preprocessLetterbox tw th image.width image.height
      .ok (postprocessOutputs confThr iouThr L.scale L.xOffset L.yOffset
        image.width image.height rows)

/-- The endpoint's detection flow (`detection.py` lines 103-143 via
`_load_and_validate_image`, lines 52-60): a missing or invalid image is
rejected with a distinguishable bad-input error before `detect` runs. -/
def detectEndpoint (session : Option (PyImage → Except Unit (List (List ℚ))))
    (confThr iouThr : ℚ) (tw th : ℕ) (image : Option PyImage) :
    Except DetectError (List Det) :=
  match image with
  | none => .error .invalidImage
  | some img =>
    if validateImage (some img) then detect session confThr iouThr tw th img
    else .error .invalidImage

/-! ## Adaptive redactor (`app/services/image_processor.py`)

Pixel buffers are modelled as dimensioned pixel functions over ℝ (the
blend mask uses square roots and real powers).  `cv2.GaussianBlur` is an
external library routine and is taken as a function parameter. -/

/-- A mutable pixel buffer: dimensions plus a pixel function. -/
structure ImgR where
  height : ℕ
  width : ℕ
  pix : ℕ → ℕ → ℝ

/-- `np.clip` of a scalar. -/
noncomputable def clipR (lo hi x : ℝ) : ℝ := max lo (min x hi)

/-- One coordinate of `np.linspace(-1.0, 1.0, n)`: for `n = 1` numpy
returns `[-1.0]` (the start point); for `n ≥ 2` the points are
`-1 + 2*i/(n-1)`. -/
noncomputable def linspaceCoord (n i : ℕ) : ℝ :=
  if n ≤ 1 then -1 else -1 + 2 * (i : ℝ) / ((n : ℝ) - 1)

/-- The center-distance grid of `_blend_with_radial_mask`
(image_processor.py lines 185-188):
`distance[i][j] = sqrt(xx[j]^2 + yy[i]^2)`. -/
noncomputable def distGrid (h w i j : ℕ) : ℝ :=
  Real.sqrt (linspaceCoord w j ^ 2 + linspaceCoord h i ^ 2)

/-- `np.max(distance) + 1e-6` (line 189).  `np.max` over the (nonempty
when it is reached) grid is modelled as a fold with neutral element 0,
which agrees with the true maximum because every distance is
non-negative. -/
noncomputable def maxDistance (h w : ℕ) : ℝ :=
  ((List.range h).flatMap (fun i => (List.range w).map (fun j => distGrid h w i j))).foldr
    max 0 + 1 / 1000000

/-- `_blend_with_radial_mask` (image_processor.py lines 170-202): blend
the blurred region toward the original using a radial weight mask, clip
to `[0,255]` and truncate back to the integer channel depth
(`astype(original.dtype)` truncates toward zero, i.e. floor on the
non-negative clipped values). -/
noncomputable def blendWithRadialMask (h w : ℕ) (original blurred : ℕ → ℕ → ℝ)
    (focusStrength baseWeight : ℝ) : ℕ → ℕ → ℝ :=
  let fs := if focusStrength ≤ 0 then 0.1 else focusStrength
  if h = 0 ∨ w = 0 then blurred
  else fun i j =>
    let radial := clipR 0 1 (1 - distGrid h w i j / maxDistance h w) ^ fs
    let wt := baseWeight + (1 - baseWeight) * radial
    ((⌊clipR 0 255 (blurred i j * wt + original i j * (1 - wt))⌋ : ℤ) : ℝ)

/-- The runtime blur settings dictionary resolved by
`get_runtime_settings`: integer kernel bounds, focus exponent and base
weight. -/
structure BlurSettings where
  minKernel : ℤ
  maxKernel : ℤ
  focusExp : ℚ
  baseWeight : ℚ
deriving DecidableEq

/-- The `h × w` crop `image[y:y+h, x:x+w]` as a pixel function (indices
beyond the crop extent do not exist in the numpy array; they are mapped
to 0 so that equal crops are equal functions). -/
def cropR (img : ImgR) (x y h w : ℕ) : ℕ → ℕ → ℝ :=
  fun i j => if i < h ∧ j < w then img.pix (y + i) (x + j) else 0

/-- The in-place slice assignment `image[y:y+h, x:x+w] = patch`. -/
def writeRegionR (img : ImgR) (x y h w : ℕ) (patch : ℕ → ℕ → ℝ) : ImgR :=
  { img with pix := fun i j =>
      if y ≤ i ∧ i < y + h ∧ x ≤ j ∧ j < x + w then patch (i - y) (j - x)
      else img.pix i j }

/-- The box clipping of `_apply_blur_to_region` (image_processor.py
lines 105-111): `x = max(0, int(bbox.x))`, `y = max(0, int(bbox.y))`,
`w = min(int(bbox.w), width - x)`, `h = min(int(bbox.h), height - y)`,
returned as `(x, y, h, w)` with the (possibly negative) extents
truncated to ℕ — the region is processed only when both extents are
positive. -/
def clipRect (img : ImgR) (d : Det) : ℕ × ℕ × ℕ × ℕ :=
  let x0 : ℤ := max 0 (pyInt d.bbox.x)
  let y0 : ℤ := max 0 (pyInt d.bbox.y)
  let w0 : ℤ := min (pyInt d.bbox.w) ((img.width : ℤ) - x0)
  let h0 : ℤ := min (pyInt d.bbox.h) ((img.height : ℤ) - y0)
  (x0.toNat, y0.toNat, h0.toNat, w0.toNat)

/-- Membership of a pixel coordinate in a clipped `(x, y, h, w)` rect. -/
def inRectR (r : ℕ × ℕ × ℕ × ℕ) (i j : ℕ) : Prop :=
  match r with
  | (x, y, h, w) => y ≤ i ∧ i < y + h ∧ x ≤ j ∧ j < x + w

/-- Two clipped rects are disjoint when no pixel lies in both. -/
def rectsDisjoint (r r' : ℕ × ℕ × ℕ × ℕ) : Prop :=
  ∀ i j, inRectR r i j → ¬ inRectR r' i j

/-- `_apply_blur_to_region` (image_processor.py lines 97-138): clip the
box to the image, skip degenerate regions, crop the current buffer,
Gaussian-blur the crop (external `gauss`, given the kernel size and crop
dimensions), blend with the radial mask, and write the result back. -/
noncomputable def applyBlurToRegion
    (gauss : ℤ → ℕ → ℕ → (ℕ → ℕ → ℝ) → ℕ → ℕ → ℝ)
    (img : ImgR) (d : Det) (s : BlurSettings) : ImgR :=
  match clipRect img d with
  | (x, y, h, w) =>
    if 0 < w ∧ 0 < h then
      let region := cropR img x y h w
      let kernel := calculateKernelSize d.confidence w h s.minKernel s.maxKernel
      let blurred := gauss kernel h w region
      let fs : ℝ := ((s.focusExp + d.confidence * s.focusExp : ℚ) : ℝ)
      let patch := blendWithRadialMask h w region blurred fs ((s.baseWeight : ℚ) : ℝ)
      writeRegionR img x y h w patch
    else img

/-- `_should_blur_detection` (image_processor.py lines 89-95). -/
def shouldBlurDetection (enableFace enablePlate : Bool) (d : Det) : Bool :=
  if d.className = "face" && enableFace then true
  else if d.className = "license_plate" && enablePlate then true
  else false

/-- `blur_detections` (image_processor.py lines 31-48): copy the caller's
buffer (value semantics here), then apply the per-region blur to the
working buffer for every enabled detection in order. -/
noncomputable def blurDetections (gauss : ℤ → ℕ → ℕ → (ℕ → ℕ → ℝ) → ℕ → ℕ → ℝ)
    (image : ImgR) (dets : List Det) (s : BlurSettings)
    (enableFace enablePlate : Bool) : ImgR :=
  dets.foldl
    (fun acc d =>
      if shouldBlurDetection enableFace enablePlate d then
        applyBlurToRegion gauss acc d s
      else acc)
    image

/-- Modelled from the spec: the per-region blur the claim describes,
cropping from a snapshot of the pre-redaction image instead of the
working buffer. -/
noncomputable def applyBlurToRegionSnapshot
    (gauss : ℤ → ℕ → ℕ → (ℕ → ℕ → ℝ) → ℕ → ℕ → ℝ)
    (snapshot : ImgR) (img : ImgR) (d : Det) (s : BlurSettings) : ImgR :=
  match clipRect img d with
  | (x, y, h, w) =>
    if 0 < w ∧ 0 < h then
      let region := cropR snapshot x y h w
      let kernel := calculateKernelSize d.confidence w h s.minKernel s.maxKernel
      let blurred := gauss kernel h w region
      let fs : ℝ := ((s.focusExp + d.confidence * s.focusExp : ℚ) : ℝ)
      let patch := blendWithRadialMask h w region blurred fs ((s.baseWeight : ℚ) : ℝ)
      writeRegionR img x y h w patch
    else img

/-- Modelled from the spec: `blur_detections` as the claim describes it,
with every region's crop taken from the pre-redaction snapshot. -/
noncomputable def blurDetectionsSnapshot
    (gauss : ℤ → ℕ → ℕ → (ℕ → ℕ → ℝ) → ℕ → ℕ → ℝ)
    (image : ImgR) (dets : List Det) (s : BlurSettings)
    (enableFace enablePlate : Bool) : ImgR :=
  dets.foldl
    (fun acc d =>
      if shouldBlurDetection enableFace enablePlate d then
        applyBlurToRegionSnapshot gauss image acc d s
      else acc)
    image

/-! ## Reference matcher (`app/services/face_recognition_blur.py`) -/

/-- Errors raised by `_compute_embedding` / `_normalize_embedding`
(face_recognition_blur.py lines 43-58), both surfaced as
`FaceRecognitionBlurError`. -/
inductive EmbedError where
  | emptyCrop
  | degenerateCrop
deriving DecidableEq

/-- Mean of a list of rationals (`flattened.mean()`). -/
def listMean (l : List ℚ) : ℚ := l.sum / (l.length : ℚ)

/-- `flattened -= flattened.mean()` (line 57). -/
def centerList (l : List ℚ) : List ℚ := l.map (fun v => v - listMean l)

/-- Squared L2 norm of a rational vector. -/
def normSq (l : List ℚ) : ℚ := (l.map (fun v => v * v)).sum

/-- `_normalize_embedding` (lines 43-47): `np.linalg.norm` is zero
exactly when the squared norm is zero; otherwise divide by the norm. -/
noncomputable def normalizeEmbedding (v : List ℚ) : Except EmbedError (List ℝ) :=
  if normSq v = 0 then .error .degenerateCrop
  else .ok (v.map (fun q : ℚ => (q : ℝ) / Real.sqrt ((normSq v : ℚ) : ℝ)))

/-- `_compute_embedding` (lines 50-58): reject an empty crop, then
resize to 128×128, equalize and flatten (external cv2 calls, taken
together as the parameter `resizeEq`), subtract the mean, and
L2-normalize. -/
noncomputable def computeEmbedding (resizeEq : List ℚ → List ℚ)
    (faceCrop : List ℚ) : Except EmbedError (List ℝ) :=
  if faceCrop = [] then .error .emptyCrop
  else normalizeEmbedding (centerList (resizeEq faceCrop))

/-- `np.dot` of two vectors. -/
noncomputable def ddot (a b : List ℝ) : ℝ := (List.zipWith (· * ·) a b).sum

/-- Sum of squares of a real vector. -/
noncomputable def sumSqR (l : List ℝ) : ℝ := (l.map (fun v => v * v)).sum

/-! ## Selective blur (`face_recognition_blur.py` `selective_blur_image`) -/

/-- A grayscale/color pixel buffer over ℚ (the selective-blur path never
blends, so its pixels stay rational). -/
structure ImgQ where
  height : ℕ
  width : ℕ
  pix : ℕ → ℕ → ℚ

/-- `_ensure_kernel_size` (face_recognition_blur.py lines 18-23). -/
def ensureKernelSize (value : Option ℤ) (fallback : ℤ) : ℤ :=
  let k0 := match value with
    | none => fallback
    | some v => v
  let k1 := max 3 k0
  if k1 % 2 = 0 then k1 + 1 else k1

/-- Number of rows of the numpy slice `img[y:y+h, x:x+w]` (numpy clips
slices at the array boundary). -/
def effHeight (img : ImgQ) (y h : ℕ) : ℕ := min h (img.height - y)

/-- Number of columns of the numpy slice `img[y:y+h, x:x+w]`. -/
def effWidth (img : ImgQ) (x w : ℕ) : ℕ := min w (img.width - x)

/-- The flattened pixel list of the slice `img[y:y+h, x:x+w]`; it is
empty exactly when `.size == 0` holds for the slice. -/
def cropListQ (img : ImgQ) (x y w h : ℕ) : List ℚ :=
  (List.range (effHeight img y h)).flatMap
    (fun i => (List.range (effWidth img x w)).map (fun j => img.pix (y + i) (x + j)))

/-- The slice `img[y:y+h, x:x+w]` as a pixel function. -/
def cropQ (img : ImgQ) (x y h w : ℕ) : ℕ → ℕ → ℚ :=
  fun i j => if i < h ∧ j < w then img.pix (y + i) (x + j) else 0

/-- The in-place slice assignment on a rational buffer. -/
def writeRegionQ (img : ImgQ) (x y h w : ℕ) (patch : ℕ → ℕ → ℚ) : ImgQ :=
  { img with pix := fun i j =>
      if y ≤ i ∧ i < y + h ∧ x ≤ j ∧ j < x + w then patch (i - y) (j - x)
      else img.pix i j }

/-- Blurring one non-matching face (face_recognition_blur.py lines
195-196): Gaussian-blur the clipped crop (external `gaussQ`) and write it
back. -/
def blurFaceRegion (gaussQ : ℤ → ℕ → ℕ → (ℕ → ℕ → ℚ) → ℕ → ℕ → ℚ)
    (kernel : ℤ) (img : ImgQ) (r : ℕ × ℕ × ℕ × ℕ) : ImgQ :=
  match r with
  | (x, y, w, h) =>
    let eh := effHeight img y h
    let ew := effWidth img x w
    writeRegionQ img x y eh ew (gaussQ kernel eh ew (cropQ img x y eh ew))

open Classical in
/-- One iteration of the face loop of `selective_blur_image`
(face_recognition_blur.py lines 168-197): skip empty crops, try to embed
the (never-modified) grayscale crop, keep the face when the embedding
succeeds and matches the reference, otherwise blur it in the working
color buffer. -/
noncomputable def selectiveBlurStep (resizeEq : List ℚ → List ℚ)
    (gaussQ : ℤ → ℕ → ℕ → (ℕ → ℕ → ℚ) → ℕ → ℕ → ℚ)
    (ref : List ℝ) (tol : ℝ) (kernel : ℤ) (gray : ImgQ)
    (img : ImgQ) (r : ℕ × ℕ × ℕ × ℕ) : ImgQ :=
  match r with
  | (x, y, w, h) =>
    if cropListQ gray x y w h = [] ∨ cropListQ img x y w h = [] then img
    else
      match computeEmbedding resizeEq (cropListQ gray x y w h) with
      | .error _ => blurFaceRegion gaussQ kernel img (x, y, w, h)
      | .ok e =>
        if tol ≤ ddot ref e then img
        else blurFaceRegion gaussQ kernel img (x, y, w, h)

/-- The face loop of `selective_blur_image` over all detected rectangles
(the grayscale buffer used for matching is never written during the
loop; only the color buffer evolves). -/
noncomputable def selectiveBlurImage (resizeEq : List ℚ → List ℚ)
    (gaussQ : ℤ → ℕ → ℕ → (ℕ → ℕ → ℚ) → ℕ → ℕ → ℚ)
    (ref : List ℝ) (tol : ℝ) (blurKernel : ℤ) (gray bgr : ImgQ)
    (rects : List (ℕ × ℕ × ℕ × ℕ)) : ImgQ :=
  let kernel := ensureKernelSize (some blurKernel) 51
  rects.foldl (selectiveBlurStep resizeEq gaussQ ref tol kernel gray) bgr

/-! ## Endpoint blur toggling (`app/api/endpoints/detection.py`) -/

/-- The mutable enable flags of the shared `ImageProcessor` instance. -/
structure ProcessorState where
  enableFaceBlur : Bool
  enablePlateBlur : Bool
deriving DecidableEq

/-- `_apply_blur_if_needed` (detection.py lines 79-101): return the input
image untouched when both flags are off; otherwise copy the image, set
the processor's enable flags to the requested values, call
`blur_detections` (a parameter that may return normally or raise,
modelled as `Except`), and restore both flags in the `finally` block
whatever the outcome.  The result pairs the processor state after the
call with the call's outcome. -/
def applyBlurIfNeeded (proc : ProcessorState) (image : ImgR) (dets : List Det)
    (rs : BlurSettings) (blurFaces blurPlates : Bool) (copyImg : ImgR → ImgR)
    (blurCall : ProcessorState → ImgR → List Det → BlurSettings → Except Unit ImgR) :
    ProcessorState × Except Unit ImgR :=
  if ¬ (blurFaces || blurPlates) then (proc, .ok image)
  else
    let working : ProcessorState :=
      { enableFaceBlur := blurFaces, enablePlateBlur := blurPlates }
    let result := blurCall working (copyImg image) dets rs
    ({ working with enableFaceBlur := proc.enableFaceBlur
                    enablePlateBlur := proc.enablePlateBlur }, result)

/-! ## Helper lemmas -/

/-- `roundHalfEven` is the identity on integers. -/
theorem roundHalfEven_intCast (n : ℤ) : roundHalfEven ((n : ℤ) : ℚ) = n := by
  unfold roundHalfEven
  rw [Int.floor_intCast]
  norm_num

/-- Python rounding is within one half of its argument. -/
theorem abs_roundHalfEven_sub_le (q : ℚ) : |((roundHalfEven q : ℤ) : ℚ) - q| ≤ 1 / 2 := by
  have h0 : (⌊q⌋ : ℚ) ≤ q := Int.floor_le q
  have h1 : q < (⌊q⌋ : ℚ) + 1 := Int.lt_floor_add_one q
  unfold roundHalfEven
  split_ifs with hlt hgt heven <;>
    · rw [abs_le]
      constructor <;> push_cast <;> linarith

/-- `roundHalfEven` never rounds down past the floor. -/
theorem floor_le_roundHalfEven (q : ℚ) : ⌊q⌋ ≤ roundHalfEven q := by
  unfold roundHalfEven
  split_ifs <;> omega

/-- Clamping to `[0,1]` is idempotent. -/
theorem clamp01_idem (c : ℚ) :
    max 0 (min 1 (max 0 (min 1 c))) = max 0 (min 1 c) := by
  have h0 : (0 : ℚ) ≤ max 0 (min 1 c) := le_max_left _ _
  have h1 : max 0 (min 1 c) ≤ 1 := max_le (by norm_num) (min_le_left _ _)
  rw [min_eq_right h1, max_eq_right h0]

/-- When the interpolation lands exactly on an odd integer `≥ 3`, the
kernel computation returns it, capped by the region cap. -/
theorem calcK_at_odd_int (n : ℤ) (w h : ℕ) (minK maxK : ℤ) (c : ℚ)
    (hc : (minK : ℚ) + ((maxK : ℚ) - (minK : ℚ)) * (max 0 (min 1 c)) = (n : ℚ))
    (hodd : n % 2 = 1) (h3 : 3 ≤ n) :
    calculateKernelSize c w h minK maxK = min n (regionKernelCap w h) := by
  have hcap : 3 ≤ regionKernelCap w h := le_max_left _ _
  simp only [calculateKernelSize, hc, roundHalfEven_intCast]
  rw [if_neg (by omega)]
  rw [regionKernelCap] at hcap ⊢
  omega

/-! ## C2 -/

/-- C2 (amended): for settings with odd kernel bounds `3 ≤ minK ≤ maxK`
(the invariant `get_runtime_settings` establishes), the adaptive kernel
returns `minK` at confidence 0 and `maxK` at confidence 1 (each capped by
the region cap), clamps the confidence to `[0,1]`, always returns an odd
value in `[3, cap]`, and follows the linear interpolation to within 3/2
when the region cap does not bind.  The cap is
`max 3 ((min(w,h)/2)*2+1)` — the smallest odd integer `≥ min(w,h)`
(floored at 3) — not the largest odd integer `≤ min(w,h)` that the claim
states. -/
theorem calculateKernelSize_spec :
    ∀ (minK maxK : ℤ) (w h : ℕ) (c : ℚ),
      3 ≤ minK → minK ≤ maxK → minK % 2 = 1 → maxK % 2 = 1 →
      calculateKernelSize 0 w h minK maxK = min minK (regionKernelCap w h) ∧
      calculateKernelSize 1 w h minK maxK = min maxK (regionKernelCap w h) ∧
      calculateKernelSize c w h minK maxK
        = calculateKernelSize (max 0 (min 1 c)) w h minK maxK ∧
      (3 ≤ calculateKernelSize c w h minK maxK ∧
        calculateKernelSize c w h minK maxK ≤ regionKernelCap w h) ∧
      calculateKernelSize c w h minK maxK % 2 = 1 ∧
      (maxK ≤ regionKernelCap w h → 0 ≤ c → c ≤ 1 →
        |((calculateKernelSize c w h minK maxK : ℤ) : ℚ)
            - ((minK : ℚ) + ((maxK : ℚ) - (minK : ℚ)) * c)| ≤ 3 / 2) := by
  intro minK maxK w h c h3 hmm ho1 ho2
  refine ⟨?_, ?_, ?_, ?_, ?_, ?_⟩
  · apply calcK_at_odd_int _ _ _ _ _ _ _ ho1 h3
    norm_num
  · apply calcK_at_odd_int _ _ _ _ _ _ _ ho2 (le_trans h3 hmm)
    norm_num
  · simp only [calculateKernelSize, clamp01_idem]
  · simp only [calculateKernelSize, regionKernelCap]
    generalize roundHalfEven ((minK : ℚ) + ((maxK : ℚ) - (minK : ℚ)) * max 0 (min 1 c)) = k0
    split_ifs with hif <;> omega
  · simp only [calculateKernelSize]
    generalize roundHalfEven ((minK : ℚ) + ((maxK : ℚ) - (minK : ℚ)) * max 0 (min 1 c)) = k0
    split_ifs with hif <;> omega
  · intro hcap hc0 hc1
    have hclamp : max 0 (min 1 c) = c := by rw [min_eq_right hc1, max_eq_right hc0]
    rw [regionKernelCap] at hcap
    simp only [calculateKernelSize, hclamp]
    set scaled := (minK : ℚ) + ((maxK : ℚ) - (minK : ℚ)) * c with hs
    set k0 := roundHalfEven scaled with hk0
    set cap := max 3 (((min w h : ℤ) / 2) * 2 + 1) with hcapdef
    have hsmin : (minK : ℚ) ≤ scaled := by
      nlinarith [show ((minK : ℤ) : ℚ) ≤ ((maxK : ℤ) : ℚ) from Int.cast_le.mpr hmm]
    have hsmax : scaled ≤ (maxK : ℚ) := by
      nlinarith [show ((minK : ℤ) : ℚ) ≤ ((maxK : ℤ) : ℚ) from Int.cast_le.mpr hmm]
    have hr : |(k0 : ℚ) - scaled| ≤ 1 / 2 := abs_roundHalfEven_sub_le scaled
    have hfl : ⌊scaled⌋ ≤ k0 := floor_le_roundHalfEven scaled
    have hmink : minK ≤ ⌊scaled⌋ := Int.le_floor.mpr hsmin
    have hk03 : 3 ≤ k0 := by omega
    have hscap : scaled ≤ (cap : ℚ) := le_trans hsmax (Int.cast_le.mpr hcap)
    obtain ⟨k1, hk1eq, hk1lo, hk1hi⟩ :
        ∃ k1 : ℤ, (if k0 % 2 = 0 then k0 + 1 else k0) = k1 ∧ k0 ≤ k1 ∧ k1 ≤ k0 + 1 := by
      split_ifs <;> exact ⟨_, rfl, by omega, by omega⟩
    rw [hk1eq]
    rw [abs_le] at hr
    rcases le_total k1 cap with hle | hle
    · rw [min_eq_left hle, max_eq_right (by omega)]
      rw [abs_le]
      have c1 : ((k0 : ℤ) : ℚ) ≤ (k1 : ℚ) := Int.cast_le.mpr hk1lo
      have c2 : (k1 : ℚ) ≤ ((k0 : ℤ) : ℚ) + 1 := by exact_mod_cast hk1hi
      constructor <;> linarith
    · rw [min_eq_right hle, max_eq_right (by omega)]
      rw [abs_le]
      have c1 : ((cap : ℤ) : ℚ) ≤ (k1 : ℚ) := Int.cast_le.mpr hle
      have c2 : (k1 : ℚ) ≤ ((k0 : ℤ) : ℚ) + 1 := by exact_mod_cast hk1hi
      constructor <;> linarith

/-- C2 counterexample: for a 4×10 region with `min_kernel_size = 3`,
`max_kernel_size = 51` and confidence 1, the code returns kernel 5, but
the largest odd integer `≤ min(4,10)` is 3, so the claimed cap is
violated. -/
theorem calculateKernelSize_cap_counterexample :
    calculateKernelSize 1 4 10 3 51 = 5 ∧ largestOddLE (min 4 10) = 3 ∧
      ¬ calculateKernelSize 1 4 10 3 51 ≤ largestOddLE (min 4 10) := by
  have h5 : calculateKernelSize 1 4 10 3 51 = 5 := by
    norm_num [calculateKernelSize, roundHalfEven]
  have h3 : largestOddLE (min 4 10) = 3 := by decide
  exact ⟨h5, h3, by rw [h5, h3]; decide⟩

/-- Witness for C2 at a concrete instance: with bounds 3 and 51 on a
100×100 region, confidence 0 yields `min(3, cap)` and confidence 1 yields
`min(51, cap)`. -/
theorem calculateKernelSize_spec_witness :
    calculateKernelSize 0 100 100 3 51 = min 3 (regionKernelCap 100 100) ∧
      calculateKernelSize 1 100 100 3 51 = min 51 (regionKernelCap 100 100) := by
  have h := calculateKernelSize_spec 3 51 100 100 (1 / 2) (by norm_num) (by norm_num)
    (by decide) (by decide)
  exact ⟨h.1, h.2.1⟩

/-! ## C1 -/

/-- The letterbox scale is positive for positive dimensions. -/
theorem preprocessScale_pos {tw th ow oh : ℕ} (htw : 1 ≤ tw) (hth : 1 ≤ th)
    (how : 1 ≤ ow) (hoh : 1 ≤ oh) : 0 < preprocessScale tw th ow oh := by
  have howQ : (0 : ℚ) < (ow : ℚ) := by exact_mod_cast how
  have hohQ : (0 : ℚ) < (oh : ℚ) := by exact_mod_cast hoh
  have htwQ : (0 : ℚ) < (tw : ℚ) := by exact_mod_cast htw
  have hthQ : (0 : ℚ) < (th : ℚ) := by exact_mod_cast hth
  exact lt_min (div_pos htwQ howQ) (div_pos hthQ hohQ)

/-- For any nonzero scale and any offsets, the decoder's inverse mapping
undoes the forward letterbox mapping exactly on boxes inside the image. -/
theorem fromNet_toNet_exact (s : ℚ) (hs0 : s ≠ 0) (xo yo : ℤ) (ow oh : ℕ)
    (x y w h : ℚ) (hx : 0 ≤ x) (hy : 0 ≤ y) (hw : 0 ≤ w) (hh : 0 ≤ h)
    (hxw : x + w ≤ (ow : ℚ)) (hyh : y + h ≤ (oh : ℚ)) :
    (match toNetworkSpace x y w h s xo yo with
      | (cx, cy, nw, nh) => fromNetworkSpace cx cy nw nh s xo yo ow oh)
      = ⟨x, y, w, h⟩ := by
  have hxle : x ≤ (ow : ℚ) := by linarith
  have hyle : y ≤ (oh : ℚ) := by linarith
  unfold toNetworkSpace fromNetworkSpace
  simp only []
  have ex : ((x + w / 2) * s + (xo : ℚ) - (xo : ℚ)) / s - w * s / s / 2 = x := by
    field_simp
    ring
  have ey : ((y + h / 2) * s + (yo : ℚ) - (yo : ℚ)) / s - h * s / s / 2 = y := by
    field_simp
    ring
  have ew : w * s / s = w := mul_div_cancel_right₀ w hs0
  have eh : h * s / s = h := mul_div_cancel_right₀ h hs0
  rw [BoxQ.mk.injEq]
  rw [ex, ey, ew, eh]
  rw [min_eq_left hxle, max_eq_right hx, min_eq_left hyle, max_eq_right hy]
  exact ⟨rfl, rfl, min_eq_left (by linarith), min_eq_left (by linarith)⟩

/-- C1: for every image with positive dimensions and every box inside it,
mapping the box into network space with the letterbox transform produced
by preprocessing and mapping it back through the decoder's inverse
transform recovers the original box exactly, hence within ±1 pixel in
every component. -/
theorem roundTripBox_within_one :
    ∀ (tw th ow oh : ℕ) (x y w h : ℚ),
      1 ≤ tw → 1 ≤ th → 1 ≤ ow → 1 ≤ oh →
      0 ≤ x → 0 ≤ y → 0 ≤ w → 0 ≤ h →
      x + w ≤ (ow : ℚ) → y + h ≤ (oh : ℚ) →
      roundTripBox tw th ow oh x y w h = ⟨x, y, w, h⟩ ∧
      |(roundTripBox tw th ow oh x y w h).x - x| ≤ 1 ∧
      |(roundTripBox tw th ow oh x y w h).y - y| ≤ 1 ∧
      |(roundTripBox tw th ow oh x y w h).w - w| ≤ 1 ∧
      |(roundTripBox tw th ow oh x y w h).h - h| ≤ 1 := by
  intro tw th ow oh x y w h htw hth how hoh hx hy hw hh hxw hyh
  have hs0 : preprocessScale tw th ow oh ≠ 0 :=
    ne_of_gt (preprocessScale_pos htw hth how hoh)
  have heq : roundTripBox tw th ow oh x y w h = ⟨x, y, w, h⟩ := by
    unfold roundTripBox
    exact fromNet_toNet_exact _ hs0 _ _ _ _ _ _ _ _ hx hy hw hh hxw hyh
  rw [heq]
  norm_num

/-- Witness for C1: the box (10, 5, 20, 10) in a 100×50 image
letterboxed to 640×640 round-trips exactly. -/
theorem roundTripBox_within_one_witness :
    roundTripBox 640 640 100 50 10 5 20 10 = ⟨10, 5, 20, 10⟩ := by
  exact (roundTripBox_within_one 640 640 100 50 10 5 20 10 (by norm_num) (by norm_num)
    (by norm_num) (by norm_num) (by norm_num) (by norm_num) (by norm_num) (by norm_num)
    (by norm_num) (by norm_num)).1

/-! ## C5 -/

/-- `pyInt` agrees with the floor on non-negative arguments. -/
theorem pyInt_of_nonneg {q : ℚ} (h : 0 ≤ q) : pyInt q = ⌊q⌋ := by
  unfold pyInt
  rw [if_neg (by linarith)]

/-- C5: for positive original and target dimensions, preprocessing
computes `scale = min(targetW/origW, targetH/origH)`, resizes to floored
dimensions never exceeding the target, centers the resized image in a
target-sized canvas filled with the constant mid-gray value 128, and sets
both offsets to half the remaining margin by floor division. -/
theorem preprocess_letterbox_spec :
    ∀ (tw th ow oh : ℕ) (resized : ℕ → ℕ → ℚ),
      1 ≤ tw → 1 ≤ th → 1 ≤ ow → 1 ≤ oh →
      (preprocessLetterbox tw th ow oh).scale
          = min ((tw : ℚ) / (ow : ℚ)) ((th : ℚ) / (oh : ℚ)) ∧
      0 < (preprocessLetterbox tw th ow oh).scale ∧
      ((preprocessLetterbox tw th ow oh).newW
          = ⌊(ow : ℚ) * (preprocessLetterbox tw th ow oh).scale⌋ ∧
        (preprocessLetterbox tw th ow oh).newH
          = ⌊(oh : ℚ) * (preprocessLetterbox tw th ow oh).scale⌋) ∧
      (0 ≤ (preprocessLetterbox tw th ow oh).newW ∧
        (preprocessLetterbox tw th ow oh).newW ≤ (tw : ℤ) ∧
        0 ≤ (preprocessLetterbox tw th ow oh).newH ∧
        (preprocessLetterbox tw th ow oh).newH ≤ (th : ℤ)) ∧
      ((preprocessLetterbox tw th ow oh).xOffset
          = ((tw : ℤ) - (preprocessLetterbox tw th ow oh).newW) / 2 ∧
        (preprocessLetterbox tw th ow oh).yOffset
          = ((th : ℤ) - (preprocessLetterbox tw th ow oh).newH) / 2) ∧
      (0 ≤ (preprocessLetterbox tw th ow oh).xOffset ∧
        (preprocessLetterbox tw th ow oh).xOffset
            + (preprocessLetterbox tw th ow oh).newW ≤ (tw : ℤ) ∧
        0 ≤ (preprocessLetterbox tw th ow oh).yOffset ∧
        (preprocessLetterbox tw th ow oh).yOffset
            + (preprocessLetterbox tw th ow oh).newH ≤ (th : ℤ)) ∧
      (∀ i j : ℕ, (i : ℤ) < (preprocessLetterbox tw th ow oh).newH →
        (j : ℤ) < (preprocessLetterbox tw th ow oh).newW →
        preprocessCanvas tw th ow oh resized
            ((preprocessLetterbox tw th ow oh).yOffset.toNat + i)
            ((preprocessLetterbox tw th ow oh).xOffset.toNat + j) = resized i j) ∧
      (∀ i j : ℕ,
        ¬ ((preprocessLetterbox tw th ow oh).yOffset ≤ (i : ℤ) ∧
           (i : ℤ) < (preprocessLetterbox tw th ow oh).yOffset
              + (preprocessLetterbox tw th ow oh).newH ∧
           (preprocessLetterbox tw th ow oh).xOffset ≤ (j : ℤ) ∧
           (j : ℤ) < (preprocessLetterbox tw th ow oh).xOffset
              + (preprocessLetterbox tw th ow oh).newW) →
        preprocessCanvas tw th ow oh resized i j = 128) := by
  intro tw th ow oh resized htw hth how hoh
  have howQ : (0 : ℚ) < (ow : ℚ) := by exact_mod_cast how
  have hohQ : (0 : ℚ) < (oh : ℚ) := by exact_mod_cast hoh
  have htwQ : (0 : ℚ) < (tw : ℚ) := by exact_mod_cast htw
  have hthQ : (0 : ℚ) < (th : ℚ) := by exact_mod_cast hth
  have hscale : (preprocessLetterbox tw th ow oh).scale = preprocessScale tw th ow oh := rfl
  have hspos : 0 < preprocessScale tw th ow oh := by
    unfold preprocessScale
    exact lt_min (div_pos htwQ howQ) (div_pos hthQ hohQ)
  have hwnn : (0 : ℚ) ≤ (ow : ℚ) * preprocessScale tw th ow oh :=
    le_of_lt (mul_pos howQ hspos)
  have hhnn : (0 : ℚ) ≤ (oh : ℚ) * preprocessScale tw th ow oh :=
    le_of_lt (mul_pos hohQ hspos)
  have hnw : (preprocessLetterbox tw th ow oh).newW
      = ⌊(ow : ℚ) * preprocessScale tw th ow oh⌋ := by
    simp only [preprocessLetterbox]
    exact pyInt_of_nonneg hwnn
  have hnh : (preprocessLetterbox tw th ow oh).newH
      = ⌊(oh : ℚ) * preprocessScale tw th ow oh⌋ := by
    simp only [preprocessLetterbox]
    exact pyInt_of_nonneg hhnn
  have hnw0 : 0 ≤ (preprocessLetterbox tw th ow oh).newW := by
    rw [hnw]; exact Int.floor_nonneg.mpr hwnn
  have hnh0 : 0 ≤ (preprocessLetterbox tw th ow oh).newH := by
    rw [hnh]; exact Int.floor_nonneg.mpr hhnn
  have hnwle : (preprocessLetterbox tw th ow oh).newW ≤ (tw : ℤ) := by
    rw [hnw]
    have : (ow : ℚ) * preprocessScale tw th ow oh ≤ (tw : ℚ) := by
      calc (ow : ℚ) * preprocessScale tw th ow oh
          ≤ (ow : ℚ) * ((tw : ℚ) / (ow : ℚ)) := by
            exact mul_le_mul_of_nonneg_left (min_le_left _ _) (le_of_lt howQ)
        _ = (tw : ℚ) := by field_simp
    exact_mod_cast Int.floor_le_floor this |>.trans_eq (Int.floor_intCast tw)
  have hnhle : (preprocessLetterbox tw th ow oh).newH ≤ (th : ℤ) := by
    rw [hnh]
    have : (oh : ℚ) * preprocessScale tw th ow oh ≤ (th : ℚ) := by
      calc (oh : ℚ) * preprocessScale tw th ow oh
          ≤ (oh : ℚ) * ((th : ℚ) / (oh : ℚ)) := by
            exact mul_le_mul_of_nonneg_left (min_le_right _ _) (le_of_lt hohQ)
        _ = (th : ℚ) := by field_simp
    exact_mod_cast Int.floor_le_floor this |>.trans_eq (Int.floor_intCast th)
  have hxoff : (preprocessLetterbox tw th ow oh).xOffset
      = ((tw : ℤ) - (preprocessLetterbox tw th ow oh).newW) / 2 := rfl
  have hyoff : (preprocessLetterbox tw th ow oh).yOffset
      = ((th : ℤ) - (preprocessLetterbox tw th ow oh).newH) / 2 := rfl
  have hxoff0 : 0 ≤ (preprocessLetterbox tw th ow oh).xOffset := by
    rw [hxoff]; omega
  have hyoff0 : 0 ≤ (preprocessLetterbox tw th ow oh).yOffset := by
    rw [hyoff]; omega
  have hxfit : (preprocessLetterbox tw th ow oh).xOffset
      + (preprocessLetterbox tw th ow oh).newW ≤ (tw : ℤ) := by
    rw [hxoff]; omega
  have hyfit : (preprocessLetterbox tw th ow oh).yOffset
      + (preprocessLetterbox tw th ow oh).newH ≤ (th : ℤ) := by
    rw [hyoff]; omega
  refine ⟨hscale, hscale ▸ hspos, ⟨hnw, hnh⟩, ⟨hnw0, hnwle, hnh0, hnhle⟩,
    ⟨hxoff, hyoff⟩, ⟨hxoff0, hxfit, hyoff0, hyfit⟩, ?_, ?_⟩
  · intro i j hi hj
    unfold preprocessCanvas
    have hyc : ((preprocessLetterbox tw th ow oh).yOffset.toNat + i : ℤ)
        = (preprocessLetterbox tw th ow oh).yOffset + (i : ℤ) := by
      push_cast [Int.toNat_of_nonneg hyoff0]
      ring
    have hxc : ((preprocessLetterbox tw th ow oh).xOffset.toNat + j : ℤ)
        = (preprocessLetterbox tw th ow oh).xOffset + (j : ℤ) := by
      push_cast [Int.toNat_of_nonneg hxoff0]
      ring
    rw [if_pos]
    · congr 1 <;> omega
    · push_cast
      refine ⟨by omega, by omega, by omega, by omega⟩
  · intro i j hout
    unfold preprocessCanvas
    rw [if_neg hout]

/-- Witness for C5: a 100×50 image letterboxed into a 640×640 canvas has
scale 6.4, resized dimensions 640×320, offsets (0, 160), and the canvas
is mid-gray outside the window. -/
theorem preprocess_letterbox_spec_witness :
    (preprocessLetterbox 640 640 100 50).scale
        = min ((640 : ℚ) / (100 : ℚ)) ((640 : ℚ) / (50 : ℚ)) ∧
      0 < (preprocessLetterbox 640 640 100 50).scale := by
  have h := preprocess_letterbox_spec 640 640 100 50 (fun _ _ => 0)
    (by norm_num) (by norm_num) (by norm_num) (by norm_num)
  exact ⟨h.1, h.2.1⟩

/-! ## C4 -/

/-- `getD` on a mapped list with a coherent default. -/
theorem getD_map_coherent {α β : Type} (f : α → β) (l : List α) (d : α) (i : ℕ) :
    (l.map f).getD i (f d) = f (l.getD i d) := by
  rw [List.getD_eq_getElem?_getD, List.getD_eq_getElem?_getD, List.getElem?_map]
  cases l[i]? <;> rfl

/-- Looking up every index of a list recovers the list. -/
theorem map_getD_range {α : Type} (l : List α) (d : α) :
    (List.range l.length).map (fun i => l.getD i d) = l := by
  apply List.ext_getElem
  · simp
  · intro i h1 h2
    simp [List.getD_eq_getElem?_getD, List.getElem?_eq_getElem h2]

/-- The index-level greedy pass mapped through detection lookup is the
detection-level greedy pass of the claim. -/
theorem nmsGreedyIdx_map (boxes : List BoxQ) (dets : List Det) (thr : ℚ)
    (hb : ∀ i, boxes.getD i default = (dets.getD i defaultDet).bbox) :
    ∀ (idxs keptI : List ℕ),
      (nmsGreedyIdx boxes thr idxs keptI).map (fun i => dets.getD i defaultDet)
        = nmsSpecGreedy thr (idxs.map (fun i => dets.getD i defaultDet))
            (keptI.map (fun i => dets.getD i defaultDet)) := by
  intro idxs
  induction idxs with
  | nil => intro keptI; rfl
  | cons i rest ih =>
    intro keptI
    unfold nmsGreedyIdx
    rw [List.map_cons]
    unfold nmsSpecGreedy
    have hcond : ∀ (ks : List ℕ), ks.all
          (fun j => iouQ (boxes.getD j default) (boxes.getD i default) < thr)
        = (ks.map (fun i => dets.getD i defaultDet)).all
            (fun k => iouQ k.bbox (dets.getD i defaultDet).bbox < thr) := by
      intro ks
      induction ks with
      | nil => rfl
      | cons a t iht =>
        simp only [List.map_cons, List.all_cons]
        rw [iht, hb a, hb i]
    rw [← hcond keptI]
    split_ifs with hif
    · rw [ih (keptI ++ [i]), List.map_append]
      rfl
    · exact ih keptI

/-- Members of the greedy output come from the accumulator or the
candidate index list. -/
theorem nmsGreedyIdx_subset (boxes : List BoxQ) (thr : ℚ) :
    ∀ (idxs keptI : List ℕ) (k : ℕ),
      k ∈ nmsGreedyIdx boxes thr idxs keptI → k ∈ keptI ∨ k ∈ idxs := by
  intro idxs
  induction idxs with
  | nil => intro keptI k hk; exact Or.inl hk
  | cons i rest ih =>
    intro keptI k hk
    unfold nmsGreedyIdx at hk
    split_ifs at hk
    · rcases ih (keptI ++ [i]) k hk with hmem | hmem
      · rcases List.mem_append.mp hmem with hmem | hmem
        · exact Or.inl hmem
        · have hki : k = i := List.mem_singleton.mp hmem
          subst hki
          exact Or.inr (List.mem_cons_self k rest)
      · exact Or.inr (List.mem_cons_of_mem i hmem)
    · rcases ih keptI k hk with hmem | hmem
      · exact Or.inl hmem
      · exact Or.inr (List.mem_cons_of_mem i hmem)

/-- C4: NMS is applied jointly over the full candidate set.  The
index-array implementation around the (spec-modelled) `cv2.dnn.NMSBoxes`
call equals the claim's direct description: process candidates in
confidence-descending order with ties broken by original decode order
(stable sort), keeping a candidate exactly when its IoU with every
previously kept candidate is strictly below the threshold.  Class labels
play no role (relabeling commutes with NMS), so a face and a plate can
suppress each other.  In particular: two same-position boxes with
confidences 0.9 and 0.4 leave only the 0.9 box; two far-apart boxes
(IoU < threshold) both survive; and on a confidence tie the
earlier-decoded box wins. -/
theorem applyNms_spec :
    (∀ (thr : ℚ) (dets : List Det),
      applyNms thr dets = nmsSpec thr dets ∧
      ∀ (g : String → String),
        applyNms thr (dets.map (fun d => ⟨g d.className, d.confidence, d.bbox⟩))
          = (applyNms thr dets).map (fun d => ⟨g d.className, d.confidence, d.bbox⟩)) ∧
    applyNms (1 / 2) [⟨"face", 9 / 10, ⟨0, 0, 10, 10⟩⟩,
        ⟨"license_plate", 2 / 5, ⟨0, 0, 10, 10⟩⟩]
      = [⟨"face", 9 / 10, ⟨0, 0, 10, 10⟩⟩] ∧
    applyNms (1 / 2) [⟨"face", 9 / 10, ⟨0, 0, 10, 10⟩⟩,
        ⟨"face", 2 / 5, ⟨20, 20, 10, 10⟩⟩]
      = [⟨"face", 9 / 10, ⟨0, 0, 10, 10⟩⟩, ⟨"face", 2 / 5, ⟨20, 20, 10, 10⟩⟩] ∧
    applyNms (1 / 2) [⟨"face", 9 / 10, ⟨0, 0, 10, 10⟩⟩,
        ⟨"license_plate", 9 / 10, ⟨0, 0, 10, 10⟩⟩]
      = [⟨"face", 9 / 10, ⟨0, 0, 10, 10⟩⟩] := by
  have key : ∀ (thr : ℚ) (dets : List Det), applyNms thr dets = nmsSpec thr dets := by
    intro thr dets
    by_cases hnil : dets = []
    · subst hnil
      unfold applyNms nmsSpec
      rw [if_pos rfl, List.mergeSort_nil]
      rfl
    · unfold applyNms nmsBoxes nmsSpec
      rw [if_neg hnil]
      have hb : ∀ i, (dets.map (·.bbox)).getD i default
          = (dets.getD i defaultDet).bbox := by
        intro i
        exact getD_map_coherent (·.bbox) dets defaultDet i
      have hsc : ∀ i, (dets.map (·.confidence)).getD i 0
          = (dets.getD i defaultDet).confidence := by
        intro i
        exact getD_map_coherent (·.confidence) dets defaultDet i
      rw [nmsGreedyIdx_map (dets.map (·.bbox)) dets thr hb]
      have hlen : (dets.map (·.bbox)).length = dets.length := List.length_map _ _
      have hms : ((List.range (dets.map (·.bbox)).length).mergeSort
            (fun i j => (dets.map (·.confidence)).getD j 0
              ≤ (dets.map (·.confidence)).getD i 0)).map
              (fun i => dets.getD i defaultDet)
          = ((List.range (dets.map (·.bbox)).length).map
              (fun i => dets.getD i defaultDet)).mergeSort
              (fun a b => b.confidence ≤ a.confidence) := by
        apply List.map_mergeSort
        intro a _ b _
        rw [hsc a, hsc b]
      rw [hms, hlen, map_getD_range]
      rfl
  have scenario : ∀ (d1 d2 : Det), decide (d2.confidence ≤ d1.confidence) = true →
      applyNms (1 / 2) [d1, d2]
        = if iouQ d1.bbox d2.bbox < 1 / 2 then [d1, d2] else [d1] := by
    intro d1 d2 hle
    rw [key (1 / 2) [d1, d2]]
    unfold nmsSpec
    rw [List.mergeSort_of_sorted (by
      rw [List.pairwise_cons]
      exact ⟨fun b hb => by rw [List.mem_singleton.mp hb]; exact hle,
        List.pairwise_singleton _ _⟩)]
    unfold nmsSpecGreedy
    rw [if_pos (by rw [List.all_nil])]
    unfold nmsSpecGreedy
    by_cases hio : iouQ d1.bbox d2.bbox < 1 / 2
    · rw [if_pos hio]
      rw [if_pos (by rw [List.nil_append, List.all_cons, List.all_nil]; simpa using hio)]
      rfl
    · rw [if_neg hio]
      rw [if_neg (by rw [List.nil_append, List.all_cons, List.all_nil]; simpa using hio)]
      rfl
  refine ⟨?_, ?_, ?_, ?_⟩
  case refine_2 =>
    rw [scenario _ _ (by norm_num)]
    rw [if_neg (by norm_num [iouQ, interArea])]
  case refine_3 =>
    rw [scenario _ _ (by norm_num)]
    rw [if_pos (by norm_num [iouQ, interArea])]
  case refine_4 =>
    rw [scenario _ _ (by norm_num)]
    rw [if_neg (by norm_num [iouQ, interArea])]
  intro thr dets
  refine ⟨key thr dets, ?_⟩
  intro g
  rw [key thr dets, key thr (dets.map (fun d => ⟨g d.className, d.confidence, d.bbox⟩))]
  unfold nmsSpec
  have hms : (dets.map (fun d => (⟨g d.className, d.confidence, d.bbox⟩ : Det))).mergeSort
        (fun a b => b.confidence ≤ a.confidence)
      = (dets.mergeSort (fun a b => b.confidence ≤ a.confidence)).map
          (fun d => ⟨g d.className, d.confidence, d.bbox⟩) := by
    rw [List.map_mergeSort]
    intro a _ b _
    rfl
  rw [hms]
  generalize dets.mergeSort (fun a b => b.confidence ≤ a.confidence) = sorted
  have hgreedy : ∀ (l kept : List Det),
      nmsSpecGreedy thr (l.map (fun d => ⟨g d.className, d.confidence, d.bbox⟩))
          (kept.map (fun d => ⟨g d.className, d.confidence, d.bbox⟩))
        = (nmsSpecGreedy thr l kept).map (fun d => ⟨g d.className, d.confidence, d.bbox⟩) := by
    intro l
    induction l with
    | nil => intro kept; rfl
    | cons d rest ih =>
      intro kept
      rw [List.map_cons]
      unfold nmsSpecGreedy
      have hcond : (kept.map (fun d => (⟨g d.className, d.confidence, d.bbox⟩ : Det))).all
            (fun k => iouQ k.bbox (⟨g d.className, d.confidence, d.bbox⟩ : Det).bbox < thr)
          = kept.all (fun k => iouQ k.bbox d.bbox < thr) := by
        rw [List.all_map]
        rfl
      rw [hcond]
      split_ifs with hif
      · have hmap : kept.map (fun d => (⟨g d.className, d.confidence, d.bbox⟩ : Det))
              ++ [(⟨g d.className, d.confidence, d.bbox⟩ : Det)]
            = (kept ++ [d]).map (fun d => (⟨g d.className, d.confidence, d.bbox⟩ : Det)) := by
          rw [List.map_append]
          rfl
        rw [hmap]
        exact ih (kept ++ [d])
      · exact ih kept
  exact hgreedy sorted []

/-! ## C8 -/

/-- A flattened crop is empty exactly when one clipped extent is zero. -/
theorem cropListQ_empty_iff (img : ImgQ) (x y w h : ℕ) :
    cropListQ img x y w h = [] ↔
      effHeight img y h = 0 ∨ effWidth img x w = 0 := by
  constructor
  · intro he
    by_contra hne
    push_neg at hne
    have h1 : 0 < effHeight img y h := Nat.pos_of_ne_zero hne.1
    have h2 : 0 < effWidth img x w := Nat.pos_of_ne_zero hne.2
    have hm : img.pix (y + 0) (x + 0) ∈ cropListQ img x y w h := by
      unfold cropListQ
      refine List.mem_flatMap.mpr ⟨0, List.mem_range.mpr h1, ?_⟩
      exact List.mem_map.mpr ⟨0, List.mem_range.mpr h2, rfl⟩
    rw [he] at hm
    exact List.not_mem_nil _ hm
  · intro he
    unfold cropListQ
    rcases he with he | he
    · rw [he]
      rfl
    · rw [he]
      simp
/-- Blurring a region whose clipped extent is empty is a no-op. -/
theorem blurFaceRegion_of_empty (gaussQ : ℤ → ℕ → ℕ → (ℕ → ℕ → ℚ) → ℕ → ℕ → ℚ)
    (kernel : ℤ) (img : ImgQ) (x y w h : ℕ)
    (he : effHeight img y h = 0 ∨ effWidth img x w = 0) :
    blurFaceRegion gaussQ kernel img (x, y, w, h) = img := by
  unfold blurFaceRegion writeRegionQ
  dsimp only
  cases img with
  | mk ih iw ipix =>
    simp only [ImgQ.mk.injEq, true_and]
    funext i j
    rcases he with he | he <;> rw [he] <;> rw [if_neg (by omega)]

/-- One selective-blur step preserves the buffer dimensions. -/
theorem selectiveBlurStep_dims (resizeEq : List ℚ → List ℚ)
    (gaussQ : ℤ → ℕ → ℕ → (ℕ → ℕ → ℚ) → ℕ → ℕ → ℚ)
    (ref : List ℝ) (tol : ℝ) (kernel : ℤ) (gray img : ImgQ) (r : ℕ × ℕ × ℕ × ℕ) :
    (selectiveBlurStep resizeEq gaussQ ref tol kernel gray img r).height = img.height ∧
      (selectiveBlurStep resizeEq gaussQ ref tol kernel gray img r).width = img.width := by
  rcases r with ⟨x, y, w, h⟩
  unfold selectiveBlurStep
  dsimp only
  split_ifs
  · exact ⟨rfl, rfl⟩
  · rcases he : computeEmbedding resizeEq (cropListQ gray x y w h) with e | e
    · exact ⟨rfl, rfl⟩
    · dsimp only
      split_ifs <;> exact ⟨rfl, rfl⟩

/-- The selective-blur fold preserves the buffer dimensions. -/
theorem selectiveBlurFold_dims (resizeEq : List ℚ → List ℚ)
    (gaussQ : ℤ → ℕ → ℕ → (ℕ → ℕ → ℚ) → ℕ → ℕ → ℚ)
    (ref : List ℝ) (tol : ℝ) (kernel : ℤ) (gray : ImgQ) :
    ∀ (rects : List (ℕ × ℕ × ℕ × ℕ)) (img : ImgQ),
      (rects.foldl (selectiveBlurStep resizeEq gaussQ ref tol kernel gray) img).height
          = img.height ∧
        (rects.foldl (selectiveBlurStep resizeEq gaussQ ref tol kernel gray) img).width
          = img.width := by
  intro rects
  induction rects with
  | nil => exact fun img => ⟨rfl, rfl⟩
  | cons r rest ih =>
    intro img
    rw [List.foldl_cons]
    rcases ih (selectiveBlurStep resizeEq gaussQ ref tol kernel gray img r) with ⟨i1, i2⟩
    rcases selectiveBlurStep_dims resizeEq gaussQ ref tol kernel gray img r with ⟨s1, s2⟩
    exact ⟨by rw [i1, s1], by rw [i2, s2]⟩

/-- C8: when embedding one detected face region fails (empty or
degenerate crop), the whole-image selective-blur call does not abort:
the failing region is treated as non-matching — blurred like any other
non-matching face (an empty region's blur is a no-op, matching the
code's skip) — and the remaining regions are processed normally. -/
theorem selectiveBlur_recovers_embedding_failure :
    ∀ (resizeEq : List ℚ → List ℚ)
      (gaussQ : ℤ → ℕ → ℕ → (ℕ → ℕ → ℚ) → ℕ → ℕ → ℚ)
      (ref : List ℝ) (tol : ℝ) (blurKernel : ℤ) (gray bgr : ImgQ)
      (before after : List (ℕ × ℕ × ℕ × ℕ)) (x y w h : ℕ) (err : EmbedError),
      gray.height = bgr.height → gray.width = bgr.width →
      computeEmbedding resizeEq (cropListQ gray x y w h) = .error err →
      selectiveBlurImage resizeEq gaussQ ref tol blurKernel gray bgr
          (before ++ (x, y, w, h) :: after)
        = selectiveBlurImage resizeEq gaussQ ref tol blurKernel gray
            (blurFaceRegion gaussQ (ensureKernelSize (some blurKernel) 51)
              (selectiveBlurImage resizeEq gaussQ ref tol blurKernel gray bgr before)
              (x, y, w, h))
            after := by
  intro f g ref tol bk gray bgr l₁ l₂ x y w h err hdh hdw herr
  unfold selectiveBlurImage
  rw [List.foldl_append, List.foldl_cons]
  congr 1
  have hdims := selectiveBlurFold_dims f g ref tol (ensureKernelSize (some bk) 51) gray l₁ bgr
  by_cases hge : cropListQ gray x y w h = []
  · have hacce : cropListQ (l₁.foldl (selectiveBlurStep f g ref tol
        (ensureKernelSize (some bk) 51) gray) bgr) x y w h = [] := by
      rw [cropListQ_empty_iff] at hge ⊢
      unfold effHeight effWidth at hge ⊢
      rw [hdims.1, hdims.2, ← hdh, ← hdw]
      exact hge
    have hemp : effHeight (l₁.foldl (selectiveBlurStep f g ref tol
          (ensureKernelSize (some bk) 51) gray) bgr) y h = 0 ∨
        effWidth (l₁.foldl (selectiveBlurStep f g ref tol
          (ensureKernelSize (some bk) 51) gray) bgr) x w = 0 :=
      (cropListQ_empty_iff _ _ _ _ _).mp hacce
    unfold selectiveBlurStep
    dsimp only
    rw [if_pos (Or.inl hge)]
    exact (blurFaceRegion_of_empty g _ _ x y w h hemp).symm
  · have haccne : ¬ cropListQ (l₁.foldl (selectiveBlurStep f g ref tol
        (ensureKernelSize (some bk) 51) gray) bgr) x y w h = [] := by
      rw [cropListQ_empty_iff] at hge ⊢
      unfold effHeight effWidth at hge ⊢
      rw [hdims.1, hdims.2, ← hdh, ← hdw]
      exact hge
    unfold selectiveBlurStep
    dsimp only
    rw [if_neg (by tauto), herr]

/-- Witness for C8: a constant 2×2 crop has zero variance, so its
embedding fails with the degenerate-crop error, and the single-region
selective blur call blurs that region like a non-matching face. -/
theorem selectiveBlur_recovers_embedding_failure_witness :
    selectiveBlurImage id (fun _ _ _ region i j => region i j / 2) [] 0 51
        ⟨2, 2, fun _ _ => 7⟩ ⟨2, 2, fun _ _ => 7⟩ [(0, 0, 2, 2)]
      = selectiveBlurImage id (fun _ _ _ region i j => region i j / 2) [] 0 51
          ⟨2, 2, fun _ _ => 7⟩
          (blurFaceRegion (fun _ _ _ region i j => region i j / 2)
            (ensureKernelSize (some 51) 51)
            (selectiveBlurImage id (fun _ _ _ region i j => region i j / 2) [] 0 51
              ⟨2, 2, fun _ _ => 7⟩ ⟨2, 2, fun _ _ => 7⟩ [])
            (0, 0, 2, 2))
          [] := by
  have herr : computeEmbedding id
      (cropListQ ⟨2, 2, fun _ _ => (7 : ℚ)⟩ 0 0 2 2) = .error .degenerateCrop := by
    have hc : cropListQ ⟨2, 2, fun _ _ => (7 : ℚ)⟩ 0 0 2 2 = [7, 7, 7, 7] := by
      norm_num [cropListQ, effHeight, effWidth]
      rfl
    rw [hc]
    have hcl : centerList (id [7, 7, 7, 7]) = [0, 0, 0, 0] := by
      norm_num [centerList, listMean]
    unfold computeEmbedding
    rw [if_neg (by decide), hcl]
    unfold normalizeEmbedding
    rw [if_pos (by norm_num [normSq])]
  exact selectiveBlur_recovers_embedding_failure id
    (fun _ _ _ region i j => region i j / 2) [] 0 51
    ⟨2, 2, fun _ _ => 7⟩ ⟨2, 2, fun _ _ => 7⟩ [] [] 0 0 2 2 .degenerateCrop
    rfl rfl herr

/-! ## C9 -/

/-- A squared norm is non-negative. -/
theorem normSq_nonneg (l : List ℚ) : 0 ≤ normSq l := by
  apply List.sum_nonneg
  intro a ha
  obtain ⟨v, _, rfl⟩ := List.mem_map.mp ha
  exact mul_self_nonneg v

/-- Sum of squares of a uniformly scaled rational vector. -/
theorem sumSqR_map_div (v : List ℚ) (k : ℝ) :
    sumSqR (v.map (fun q : ℚ => (q : ℝ) / k)) = ((normSq v : ℚ) : ℝ) / k ^ 2 := by
  induction v with
  | nil => simp [sumSqR, normSq]
  | cons a t ih =>
    simp only [List.map_cons, sumSqR, List.sum_cons, normSq] at ih ⊢
    rw [ih]
    push_cast
    ring

/-- The dot product of a vector with itself is its sum of squares. -/
theorem ddot_self (l : List ℝ) : ddot l l = sumSqR l := by
  induction l with
  | nil => simp [ddot, sumSqR]
  | cons a t ih =>
    simp only [ddot, sumSqR, List.zipWith_cons_cons, List.map_cons, List.sum_cons] at ih ⊢
    rw [ih]

/-- C9: every embedding the embed operation returns (it fails with the
degenerate-crop error otherwise) has L2 norm exactly 1, and its cosine
similarity with itself is exactly 1.  (Determinism is immediate:
`computeEmbedding` is a pure function of the crop and of the external
resize/equalize stage.) -/
theorem computeEmbedding_normalized :
    ∀ (resizeEq : List ℚ → List ℚ) (faceCrop : List ℚ) (e : List ℝ),
      computeEmbedding resizeEq faceCrop = .ok e →
      Real.sqrt (sumSqR e) = 1 ∧ ddot e e = 1 ∧ sumSqR e = 1 := by
  intro f c e hok
  unfold computeEmbedding at hok
  split_ifs at hok with h1
  unfold normalizeEmbedding at hok
  split_ifs at hok with h2
  rw [Except.ok.injEq] at hok
  set v := centerList (f c) with hv
  have hs0 : (0 : ℚ) ≤ normSq v := normSq_nonneg v
  have hsR : (0 : ℝ) ≤ ((normSq v : ℚ) : ℝ) := by exact_mod_cast hs0
  have hsne : ((normSq v : ℚ) : ℝ) ≠ 0 := by exact_mod_cast h2
  have hsum : sumSqR e = 1 := by
    rw [← hok, sumSqR_map_div, Real.sq_sqrt hsR, div_self hsne]
  refine ⟨by rw [hsum, Real.sqrt_one], by rw [ddot_self, hsum], hsum⟩

/-- Witness for C9: embedding the concrete crop `[0, 2]` (with the
external resize stage as the identity) succeeds and the result has unit
sum of squares. -/
theorem computeEmbedding_normalized_witness :
    computeEmbedding id [0, 2]
        = .ok [(-1 : ℝ) / Real.sqrt 2, (1 : ℝ) / Real.sqrt 2] ∧
      sumSqR [(-1 : ℝ) / Real.sqrt 2, (1 : ℝ) / Real.sqrt 2] = 1 := by
  have hne : ¬ (([0, 2] : List ℚ) = []) := by decide
  have hc : centerList (id [0, 2]) = [-1, 1] := by
    norm_num [centerList, listMean]
  have hns : normSq [(-1 : ℚ), 1] = 2 := by norm_num [normSq]
  have hok : computeEmbedding id [0, 2]
      = .ok [(-1 : ℝ) / Real.sqrt 2, (1 : ℝ) / Real.sqrt 2] := by
    unfold computeEmbedding
    rw [if_neg hne, hc]
    unfold normalizeEmbedding
    rw [hns]
    norm_num
  exact ⟨hok, (computeEmbedding_normalized id [0, 2] _ hok).2.2⟩

/-! ## C6 -/

/-- With `base_weight = 1` every blended pixel is the clipped, truncated
blurred pixel, whatever the radial mask evaluates to. -/
theorem blend_base_one (h w : ℕ) (o b : ℕ → ℕ → ℝ) (fs base : ℝ) (i j : ℕ)
    (hh : h ≠ 0) (hw : w ≠ 0) (hb : base = 1) :
    blendWithRadialMask h w o b fs base i j = ((⌊clipR 0 255 (b i j)⌋ : ℤ) : ℝ) := by
  subst hb
  unfold blendWithRadialMask
  simp only []
  rw [if_neg (by tauto)]
  generalize clipR 0 1 (1 - distGrid h w i j / maxDistance h w)
      ^ (if fs ≤ 0 then (0.1 : ℝ) else fs) = r
  have e : b i j * (1 + (1 - 1) * r) + o i j * (1 - (1 + (1 - 1) * r)) = b i j := by
    ring
  rw [e]

/-- The middle `linspace(-1, 1, 2m+1)` coordinate is 0. -/
theorem linspaceCoord_center (m : ℕ) (hm : 1 ≤ m) :
    linspaceCoord (2 * m + 1) m = 0 := by
  unfold linspaceCoord
  rw [if_neg (by omega)]
  have hm0 : ((m : ℝ)) ≠ 0 := by
    exact_mod_cast Nat.one_le_iff_ne_zero.mp hm
  push_cast
  field_simp

/-- At the center of an odd-sized region, the radial weight is 1, so with
`base_weight = 0` the output center pixel is the clipped, truncated
blurred pixel. -/
theorem blend_center (a c : ℕ) (o bl : ℕ → ℕ → ℝ) (fs : ℝ)
    (ha : 1 ≤ a) (hc : 1 ≤ c) :
    blendWithRadialMask (2 * a + 1) (2 * c + 1) o bl fs 0 a c
      = ((⌊clipR 0 255 (bl a c)⌋ : ℤ) : ℝ) := by
  unfold blendWithRadialMask
  simp only []
  rw [if_neg (by omega)]
  have hdist : distGrid (2 * a + 1) (2 * c + 1) a c = 0 := by
    unfold distGrid
    rw [linspaceCoord_center a ha, linspaceCoord_center c hc]
    norm_num
  rw [hdist]
  have hradial : clipR 0 1 (1 - 0 / maxDistance (2 * a + 1) (2 * c + 1)) = 1 := by
    rw [zero_div, sub_zero]
    unfold clipR
    norm_num
  rw [hradial, Real.one_rpow]
  norm_num

/-- C6 (amended): the blend weight is
`base_weight + (1-base_weight) * radial` with the radial mask equal to 1
at the region center and decaying outward; consequently with
`base_weight = 1` the blend is a pure uniform blur (every output pixel
equals the blurred pixel whenever the blurred pixels carry integer values
in `[0,255]`, as uint8 buffers do), and with `base_weight = 0` the
region's center pixel (odd dimensions) receives the clipped, truncated
BLURRED value — the original center pixel is not preserved unless it
already equals the blurred one. -/
theorem blendWithRadialMask_spec :
    ∀ (h w : ℕ) (o b : ℕ → ℕ → ℝ) (fs : ℝ) (i j : ℕ),
      h ≠ 0 → w ≠ 0 →
      ((∃ n : ℕ, b i j = (n : ℝ) ∧ n ≤ 255) →
        blendWithRadialMask h w o b fs 1 i j = b i j) ∧
      (∀ (a c : ℕ), 1 ≤ a → 1 ≤ c →
        blendWithRadialMask (2 * a + 1) (2 * c + 1) o b fs 0 a c
          = ((⌊clipR 0 255 (b a c)⌋ : ℤ) : ℝ)) := by
  intro h w o b fs i j hh hw
  constructor
  · rintro ⟨n, hn, hle⟩
    rw [blend_base_one h w o b fs 1 i j hh hw rfl, hn]
    have h1 : clipR 0 255 ((n : ℝ)) = (n : ℝ) := by
      unfold clipR
      have : ((n : ℝ)) ≤ 255 := by exact_mod_cast hle
      rw [min_eq_left this, max_eq_right (by positivity)]
    rw [h1]
    norm_num
  · intro a c ha hc
    exact blend_center a c o b fs ha hc

/-- C6 counterexample: a 3×3 region with every original pixel 100 and
every blurred pixel 50, `base_weight = 0` and the large focus exponent
100: the output center pixel is 50, the blurred value, not the original
100 the claim asserts is preserved. -/
theorem blend_center_counterexample :
    blendWithRadialMask 3 3 (fun _ _ => (100 : ℝ)) (fun _ _ => (50 : ℝ)) 100 0 1 1
        = 50 ∧ (100 : ℝ) ≠ 50 := by
  constructor
  · have h := blend_center 1 1 (fun _ _ => (100 : ℝ)) (fun _ _ => (50 : ℝ)) 100
      (le_refl 1) (le_refl 1)
    have h50 : clipR 0 255 ((fun _ _ => (50 : ℝ)) 1 1) = 50 := by
      unfold clipR
      norm_num
    rw [h50] at h
    norm_num at h
    exact h
  · norm_num

/-- Witness for C6: on a 1×1 region with blurred pixel 7 and base weight
1 the output is 7; on a 3×3 region with blurred center 50 and base
weight 0 the output center is 50. -/
theorem blendWithRadialMask_spec_witness :
    blendWithRadialMask 1 1 (fun _ _ => (3 : ℝ)) (fun _ _ => (7 : ℝ)) 5 1 0 0 = 7 ∧
      blendWithRadialMask 3 3 (fun _ _ => (100 : ℝ)) (fun _ _ => (50 : ℝ)) 5 0 1 1
        = ((⌊clipR 0 255 ((50 : ℝ))⌋ : ℤ) : ℝ) := by
  have h1 := (blendWithRadialMask_spec 1 1 (fun _ _ => (3 : ℝ)) (fun _ _ => (7 : ℝ))
    5 0 0 (by norm_num) (by norm_num)).1 ⟨7, by norm_num, by norm_num⟩
  have h2 := (blendWithRadialMask_spec 3 3 (fun _ _ => (100 : ℝ)) (fun _ _ => (50 : ℝ))
    5 0 0 (by norm_num) (by norm_num)).2 1 1 (le_refl 1) (le_refl 1)
  exact ⟨h1, h2⟩

/-! ## C3 -/

/-- Writing a region leaves pixels outside it untouched. -/
theorem writeRegionR_pix_out (img : ImgR) (x y h w : ℕ) (p : ℕ → ℕ → ℝ)
    (i j : ℕ) (hout : ¬ inRectR (x, y, h, w) i j) :
    (writeRegionR img x y h w p).pix i j = img.pix i j := by
  unfold writeRegionR inRectR at *
  exact if_neg hout

/-- Writing a region places the patch inside it. -/
theorem writeRegionR_pix_in (img : ImgR) (x y h w : ℕ) (p : ℕ → ℕ → ℝ)
    (i j : ℕ) (hin : inRectR (x, y, h, w) i j) :
    (writeRegionR img x y h w p).pix i j = p (i - y) (j - x) := by
  unfold writeRegionR inRectR at *
  exact if_pos hin

/-- The per-region blur step in the non-degenerate case. -/
theorem applyBlurToRegion_eq_write (gauss : ℤ → ℕ → ℕ → (ℕ → ℕ → ℝ) → ℕ → ℕ → ℝ)
    (img : ImgR) (d : Det) (s : BlurSettings) (x y h w : ℕ)
    (hclip : clipRect img d = (x, y, h, w)) (hw : 0 < w) (hh : 0 < h) :
    applyBlurToRegion gauss img d s
      = writeRegionR img x y h w
          (blendWithRadialMask h w (cropR img x y h w)
            (gauss (calculateKernelSize d.confidence w h s.minKernel s.maxKernel)
              h w (cropR img x y h w))
            ((s.focusExp + d.confidence * s.focusExp : ℚ) : ℝ)
            ((s.baseWeight : ℚ) : ℝ)) := by
  unfold applyBlurToRegion
  rw [hclip]
  exact if_pos ⟨hw, hh⟩

/-- The per-region snapshot blur step in the non-degenerate case. -/
theorem applyBlurToRegionSnapshot_eq_write
    (gauss : ℤ → ℕ → ℕ → (ℕ → ℕ → ℝ) → ℕ → ℕ → ℝ)
    (snapshot img : ImgR) (d : Det) (s : BlurSettings) (x y h w : ℕ)
    (hclip : clipRect img d = (x, y, h, w)) (hw : 0 < w) (hh : 0 < h) :
    applyBlurToRegionSnapshot gauss snapshot img d s
      = writeRegionR img x y h w
          (blendWithRadialMask h w (cropR snapshot x y h w)
            (gauss (calculateKernelSize d.confidence w h s.minKernel s.maxKernel)
              h w (cropR snapshot x y h w))
            ((s.focusExp + d.confidence * s.focusExp : ℚ) : ℝ)
            ((s.baseWeight : ℚ) : ℝ)) := by
  unfold applyBlurToRegionSnapshot
  rw [hclip]
  exact if_pos ⟨hw, hh⟩

/-- The snapshot blur step preserves the buffer dimensions. -/
theorem applyBlurToRegionSnapshot_dims
    (gauss : ℤ → ℕ → ℕ → (ℕ → ℕ → ℝ) → ℕ → ℕ → ℝ)
    (snapshot img : ImgR) (d : Det) (s : BlurSettings) :
    (applyBlurToRegionSnapshot gauss snapshot img d s).height = img.height ∧
      (applyBlurToRegionSnapshot gauss snapshot img d s).width = img.width := by
  unfold applyBlurToRegionSnapshot
  rcases hc : clipRect img d with ⟨x, y, h, w⟩
  dsimp only
  split_ifs <;> exact ⟨rfl, rfl⟩

/-- The per-region blur step preserves the buffer dimensions. -/
theorem applyBlurToRegion_dims (gauss : ℤ → ℕ → ℕ → (ℕ → ℕ → ℝ) → ℕ → ℕ → ℝ)
    (img : ImgR) (d : Det) (s : BlurSettings) :
    (applyBlurToRegion gauss img d s).height = img.height ∧
      (applyBlurToRegion gauss img d s).width = img.width := by
  unfold applyBlurToRegion
  rcases hc : clipRect img d with ⟨x, y, h, w⟩
  dsimp only
  split_ifs <;> exact ⟨rfl, rfl⟩

/-- The whole blur fold preserves the buffer dimensions. -/
theorem blurDetections_dims (gauss : ℤ → ℕ → ℕ → (ℕ → ℕ → ℝ) → ℕ → ℕ → ℝ)
    (dets : List Det) (img : ImgR) (s : BlurSettings) (ef ep : Bool) :
    (blurDetections gauss img dets s ef ep).height = img.height ∧
      (blurDetections gauss img dets s ef ep).width = img.width := by
  unfold blurDetections
  induction dets generalizing img with
  | nil => exact ⟨rfl, rfl⟩
  | cons d rest ih =>
    rw [List.foldl_cons]
    rcases ih (if shouldBlurDetection ef ep d then applyBlurToRegion gauss img d s else img)
      with ⟨ihh, ihw⟩
    constructor
    · rw [ihh]
      split_ifs
      · exact (applyBlurToRegion_dims gauss img d s).1
      · rfl
    · rw [ihw]
      split_ifs
      · exact (applyBlurToRegion_dims gauss img d s).2
      · rfl

/-- Clipping depends on the image only through its dimensions. -/
theorem clipRect_dims_eq (a b : ImgR) (d : Det)
    (hh : a.height = b.height) (hw : a.width = b.width) :
    clipRect a d = clipRect b d := by
  unfold clipRect
  rw [hh, hw]

/-- Crops of two buffers agreeing on the crop window are equal. -/
theorem cropR_congr (a b : ImgR) (x y h w : ℕ)
    (hagree : ∀ i j, inRectR (x, y, h, w) i j → a.pix i j = b.pix i j) :
    cropR a x y h w = cropR b x y h w := by
  funext i j
  unfold cropR
  split_ifs with hin
  · exact hagree (y + i) (x + j) ⟨by omega, by omega, by omega, by omega⟩
  · rfl

/-- When the working buffer still agrees with the snapshot on a region's
clipped rect, the sequential step and the snapshot step coincide. -/
theorem blurStep_agree (gauss : ℤ → ℕ → ℕ → (ℕ → ℕ → ℝ) → ℕ → ℕ → ℝ)
    (orig acc : ImgR) (d : Det) (s : BlurSettings)
    (hagree : ∀ i j, inRectR (clipRect acc d) i j → acc.pix i j = orig.pix i j) :
    applyBlurToRegion gauss acc d s = applyBlurToRegionSnapshot gauss orig acc d s := by
  rcases hc : clipRect acc d with ⟨x, y, h, w⟩
  by_cases hpos : 0 < w ∧ 0 < h
  · rw [applyBlurToRegion_eq_write gauss acc d s x y h w hc hpos.1 hpos.2,
      applyBlurToRegionSnapshot_eq_write gauss orig acc d s x y h w hc hpos.1 hpos.2]
    rw [cropR_congr acc orig x y h w (by rw [← hc] at *; exact hagree)]
  · unfold applyBlurToRegion applyBlurToRegionSnapshot
    rw [hc]
    dsimp only
    rw [if_neg hpos, if_neg hpos]

/-- The generalized fold correspondence: starting from a working buffer
with the snapshot's dimensions that still agrees with the snapshot on
every remaining enabled region, the sequential fold and the snapshot
fold produce identical buffers, provided the enabled regions are
pairwise disjoint. -/
theorem blurFold_agree (gauss : ℤ → ℕ → ℕ → (ℕ → ℕ → ℝ) → ℕ → ℕ → ℝ)
    (s : BlurSettings) (ef ep : Bool) (orig : ImgR) :
    ∀ (dets : List Det) (acc : ImgR),
      acc.height = orig.height → acc.width = orig.width →
      (∀ d ∈ dets, shouldBlurDetection ef ep d = true →
        ∀ i j, inRectR (clipRect orig d) i j → acc.pix i j = orig.pix i j) →
      dets.Pairwise (fun d d' =>
        shouldBlurDetection ef ep d = true → shouldBlurDetection ef ep d' = true →
        rectsDisjoint (clipRect orig d) (clipRect orig d')) →
      dets.foldl
        (fun a d => if shouldBlurDetection ef ep d then applyBlurToRegion gauss a d s else a)
        acc
      = dets.foldl
          (fun a d =>
            if shouldBlurDetection ef ep d then applyBlurToRegionSnapshot gauss orig a d s
            else a)
          acc := by
  intro dets
  induction dets with
  | nil => intro acc _ _ _ _; rfl
  | cons d rest ih =>
    intro acc hah haw hagree hpair
    rw [List.foldl_cons, List.foldl_cons]
    rcases List.pairwise_cons.mp hpair with ⟨hd, hrest⟩
    by_cases hsb : shouldBlurDetection ef ep d = true
    · rw [if_pos hsb, if_pos hsb]
      have hclipeq : clipRect acc d = clipRect orig d := clipRect_dims_eq acc orig d hah haw
      have hstep : applyBlurToRegion gauss acc d s
          = applyBlurToRegionSnapshot gauss orig acc d s := by
        apply blurStep_agree
        rw [hclipeq]
        exact hagree d (List.mem_cons_self d rest) hsb
      rw [← hstep]
      apply ih
      · rw [(applyBlurToRegion_dims gauss acc d s).1, hah]
      · rw [(applyBlurToRegion_dims gauss acc d s).2, haw]
      · intro d' hd' hsb' i j hin
        have hdisj : rectsDisjoint (clipRect orig d) (clipRect orig d') := hd d' hd' hsb hsb'
        have hnot : ¬ inRectR (clipRect orig d) i j := fun hmem => hdisj i j hmem hin
        have hout : (applyBlurToRegion gauss acc d s).pix i j = acc.pix i j := by
          rcases hc : clipRect acc d with ⟨x, y, h, w⟩
          by_cases hpos : 0 < w ∧ 0 < h
          · rw [applyBlurToRegion_eq_write gauss acc d s x y h w hc hpos.1 hpos.2]
            apply writeRegionR_pix_out
            rw [← hc, hclipeq]
            exact hnot
          · unfold applyBlurToRegion
            rw [hc]
            dsimp only
            rw [if_neg hpos]
        rw [hout]
        exact hagree d' (List.mem_cons_of_mem d hd') hsb' i j hin
      · exact hrest
    · rw [if_neg hsb, if_neg hsb]
      apply ih acc hah haw
      · intro d' hd' hsb' i j hin
        exact hagree d' (List.mem_cons_of_mem d hd') hsb' i j hin
      · exact hrest

/-- C3 (amended): `blur_detections` works on a value copy of the
caller's buffer, but each region's crop is taken from the *working*
buffer, not from a pre-redaction snapshot; the snapshot semantics the
claim asserts holds exactly when the enabled regions are pairwise
disjoint, in which case the sequential fold equals the snapshot fold. -/
theorem blurDetections_eq_snapshot_of_disjoint :
    ∀ (gauss : ℤ → ℕ → ℕ → (ℕ → ℕ → ℝ) → ℕ → ℕ → ℝ)
      (img : ImgR) (dets : List Det) (s : BlurSettings) (ef ep : Bool),
      dets.Pairwise (fun d d' =>
        shouldBlurDetection ef ep d = true → shouldBlurDetection ef ep d' = true →
        rectsDisjoint (clipRect img d) (clipRect img d')) →
      blurDetections gauss img dets s ef ep
        = blurDetectionsSnapshot gauss img dets s ef ep := by
  intro gauss img dets s ef ep hpair
  unfold blurDetections blurDetectionsSnapshot
  exact blurFold_agree gauss s ef ep img dets img rfl rfl
    (fun _ _ _ _ _ _ => rfl) hpair

/-- Witness for C3 (amended) at a concrete input: two disjoint enabled
face regions in a 1×3 buffer, where the sequential fold and the snapshot
fold agree. -/
theorem blurDetections_eq_snapshot_of_disjoint_witness :
    blurDetections (fun _ _ _ region i j => region i j / 2)
        ⟨1, 3, fun _ _ => 10⟩
        [⟨"face", 1 / 2, ⟨0, 0, 1, 1⟩⟩, ⟨"face", 1 / 2, ⟨2, 0, 1, 1⟩⟩]
        ⟨3, 3, 5 / 2, 1⟩ true true
      = blurDetectionsSnapshot (fun _ _ _ region i j => region i j / 2)
          ⟨1, 3, fun _ _ => 10⟩
          [⟨"face", 1 / 2, ⟨0, 0, 1, 1⟩⟩, ⟨"face", 1 / 2, ⟨2, 0, 1, 1⟩⟩]
          ⟨3, 3, 5 / 2, 1⟩ true true := by
  apply blurDetections_eq_snapshot_of_disjoint
  have h1 : clipRect ⟨1, 3, fun _ _ => (10 : ℝ)⟩ ⟨"face", 1 / 2, ⟨0, 0, 1, 1⟩⟩
      = (0, 0, 1, 1) := by
    norm_num [clipRect, pyInt]
  have h2 : clipRect ⟨1, 3, fun _ _ => (10 : ℝ)⟩ ⟨"face", 1 / 2, ⟨2, 0, 1, 1⟩⟩
      = (2, 0, 1, 1) := by
    norm_num [clipRect, pyInt]
    decide
  refine List.Pairwise.cons ?_ (List.pairwise_singleton _ _)
  intro d' hd' _ _
  have hd2 : d' = ⟨"face", 1 / 2, ⟨2, 0, 1, 1⟩⟩ := by
    simpa using hd'
  subst hd2
  rw [h1, h2]
  intro i j hin hin2
  simp only [inRectR] at hin hin2
  omega

/-- C3 counterexample: a 1×3 buffer of 10s with two overlapping enabled
face regions and `base_weight = 1`: the sequential code (second crop
reads the first region's blurred output) produces 2 at pixel (0,1),
while snapshot semantics produces 5 — so `blur_detections` does not
compute each region's blur from pre-redaction pixels. -/
theorem blurDetections_snapshot_counterexample :
    (blurDetections (fun _ _ _ region i j => region i j / 2)
        ⟨1, 3, fun _ _ => 10⟩
        [⟨"face", 9 / 10, ⟨0, 0, 2, 1⟩⟩, ⟨"face", 9 / 10, ⟨1, 0, 2, 1⟩⟩]
        ⟨3, 3, 5 / 2, 1⟩ true true).pix 0 1
      = 2 ∧
    (blurDetectionsSnapshot (fun _ _ _ region i j => region i j / 2)
        ⟨1, 3, fun _ _ => 10⟩
        [⟨"face", 9 / 10, ⟨0, 0, 2, 1⟩⟩, ⟨"face", 9 / 10, ⟨1, 0, 2, 1⟩⟩]
        ⟨3, 3, 5 / 2, 1⟩ true true).pix 0 1
      = 5 ∧
    (2 : ℝ) ≠ 5 := by
  have hb1 : shouldBlurDetection true true ⟨"face", 9 / 10, ⟨0, 0, 2, 1⟩⟩ = true := by
    decide
  have hb2 : shouldBlurDetection true true ⟨"face", 9 / 10, ⟨1, 0, 2, 1⟩⟩ = true := by
    decide
  have hc1 : clipRect ⟨1, 3, fun _ _ => (10 : ℝ)⟩ ⟨"face", 9 / 10, ⟨0, 0, 2, 1⟩⟩
      = (0, 0, 1, 2) := by
    norm_num [clipRect, pyInt]
    decide
  have hin1 : (applyBlurToRegion (fun _ _ _ region i j => region i j / 2)
      ⟨1, 3, fun _ _ => 10⟩ ⟨"face", 9 / 10, ⟨0, 0, 2, 1⟩⟩ ⟨3, 3, 5 / 2, 1⟩).pix 0 1
      = 5 := by
    rw [applyBlurToRegion_eq_write _ _ _ _ 0 0 1 2 hc1 (by norm_num) (by norm_num)]
    rw [writeRegionR_pix_in _ _ _ _ _ _ 0 1 ⟨by omega, by omega, by omega, by omega⟩]
    rw [blend_base_one 1 2 _ _ _ _ (0 - 0) (1 - 0) (by norm_num) (by norm_num)
      (by norm_num)]
    norm_num [cropR, clipR]
  have hdim := applyBlurToRegion_dims (fun _ _ _ region i j => region i j / 2)
    ⟨1, 3, fun _ _ => 10⟩ ⟨"face", 9 / 10, ⟨0, 0, 2, 1⟩⟩ ⟨3, 3, 5 / 2, 1⟩
  have hc2 : clipRect (applyBlurToRegion (fun _ _ _ region i j => region i j / 2)
      ⟨1, 3, fun _ _ => 10⟩ ⟨"face", 9 / 10, ⟨0, 0, 2, 1⟩⟩ ⟨3, 3, 5 / 2, 1⟩)
      ⟨"face", 9 / 10, ⟨1, 0, 2, 1⟩⟩ = (1, 0, 1, 2) := by
    rw [clipRect_dims_eq _ ⟨1, 3, fun _ _ => 10⟩ _ hdim.1 hdim.2]
    norm_num [clipRect, pyInt]
    decide
  refine ⟨?_, ?_, by norm_num⟩
  · have hseq : blurDetections (fun _ _ _ region i j => region i j / 2)
        ⟨1, 3, fun _ _ => 10⟩
        [⟨"face", 9 / 10, ⟨0, 0, 2, 1⟩⟩, ⟨"face", 9 / 10, ⟨1, 0, 2, 1⟩⟩]
        ⟨3, 3, 5 / 2, 1⟩ true true
        = applyBlurToRegion (fun _ _ _ region i j => region i j / 2)
            (applyBlurToRegion (fun _ _ _ region i j => region i j / 2)
              ⟨1, 3, fun _ _ => 10⟩ ⟨"face", 9 / 10, ⟨0, 0, 2, 1⟩⟩ ⟨3, 3, 5 / 2, 1⟩)
            ⟨"face", 9 / 10, ⟨1, 0, 2, 1⟩⟩ ⟨3, 3, 5 / 2, 1⟩ := by
      unfold blurDetections
      rw [List.foldl_cons, List.foldl_cons, List.foldl_nil, if_pos hb1, if_pos hb2]
    rw [hseq]
    rw [applyBlurToRegion_eq_write _ _ _ _ 1 0 1 2 hc2 (by norm_num) (by norm_num)]
    rw [writeRegionR_pix_in _ 1 0 1 2 _ 0 1 (by norm_num [inRectR])]
    rw [blend_base_one 1 2 _ _ _ _ (0 - 0) (1 - 1) (by norm_num) (by norm_num)
      (by norm_num)]
    have hcrop : cropR (applyBlurToRegion (fun _ _ _ region i j => region i j / 2)
        ⟨1, 3, fun _ _ => 10⟩ ⟨"face", 9 / 10, ⟨0, 0, 2, 1⟩⟩ ⟨3, 3, 5 / 2, 1⟩)
        1 0 1 2 (0 - 0) (1 - 1)
        = (applyBlurToRegion (fun _ _ _ region i j => region i j / 2)
            ⟨1, 3, fun _ _ => 10⟩ ⟨"face", 9 / 10, ⟨0, 0, 2, 1⟩⟩
            ⟨3, 3, 5 / 2, 1⟩).pix 0 1 := by
      norm_num [cropR]
    rw [hcrop, hin1]
    norm_num [clipR]
  · have hsnap : blurDetectionsSnapshot (fun _ _ _ region i j => region i j / 2)
        ⟨1, 3, fun _ _ => 10⟩
        [⟨"face", 9 / 10, ⟨0, 0, 2, 1⟩⟩, ⟨"face", 9 / 10, ⟨1, 0, 2, 1⟩⟩]
        ⟨3, 3, 5 / 2, 1⟩ true true
        = applyBlurToRegionSnapshot (fun _ _ _ region i j => region i j / 2)
            ⟨1, 3, fun _ _ => 10⟩
            (applyBlurToRegionSnapshot (fun _ _ _ region i j => region i j / 2)
              ⟨1, 3, fun _ _ => 10⟩ ⟨1, 3, fun _ _ => 10⟩
              ⟨"face", 9 / 10, ⟨0, 0, 2, 1⟩⟩ ⟨3, 3, 5 / 2, 1⟩)
            ⟨"face", 9 / 10, ⟨1, 0, 2, 1⟩⟩ ⟨3, 3, 5 / 2, 1⟩ := by
      unfold blurDetectionsSnapshot
      rw [List.foldl_cons, List.foldl_cons, List.foldl_nil, if_pos hb1, if_pos hb2]
    rw [hsnap]
    have hsdim := applyBlurToRegionSnapshot_dims (fun _ _ _ region i j => region i j / 2)
      ⟨1, 3, fun _ _ => 10⟩ ⟨1, 3, fun _ _ => 10⟩
      ⟨"face", 9 / 10, ⟨0, 0, 2, 1⟩⟩ ⟨3, 3, 5 / 2, 1⟩
    have hc2s : clipRect (applyBlurToRegionSnapshot (fun _ _ _ region i j => region i j / 2)
        ⟨1, 3, fun _ _ => 10⟩ ⟨1, 3, fun _ _ => 10⟩
        ⟨"face", 9 / 10, ⟨0, 0, 2, 1⟩⟩ ⟨3, 3, 5 / 2, 1⟩)
        ⟨"face", 9 / 10, ⟨1, 0, 2, 1⟩⟩ = (1, 0, 1, 2) := by
      rw [clipRect_dims_eq _ ⟨1, 3, fun _ _ => 10⟩ _ hsdim.1 hsdim.2]
      norm_num [clipRect, pyInt]
      decide
    rw [applyBlurToRegionSnapshot_eq_write _ _ _ _ _ 1 0 1 2 hc2s (by norm_num)
      (by norm_num)]
    rw [writeRegionR_pix_in _ 1 0 1 2 _ 0 1 (by norm_num [inRectR])]
    rw [blend_base_one 1 2 _ _ _ _ (0 - 0) (1 - 1) (by norm_num) (by norm_num)
      (by norm_num)]
    norm_num [cropR, clipR]

/-! ## C10 -/

/-- C10: for every pair of blur flags and every outcome of the inner
blur call, `_apply_blur_if_needed` leaves the processor's
`enable_face_blur` and `enable_plate_blur` fields equal to their values
before the call, and when both flags are false it returns the input
image unchanged without invoking the blur call at all (the result does
not depend on `blurCall`). -/
theorem applyBlurIfNeeded_restores_flags :
    ∀ (proc : ProcessorState) (image : ImgR) (dets : List Det) (rs : BlurSettings)
      (bf bp : Bool) (copyImg : ImgR → ImgR)
      (blurCall : ProcessorState → ImgR → List Det → BlurSettings → Except Unit ImgR),
      ((applyBlurIfNeeded proc image dets rs bf bp copyImg blurCall).1.enableFaceBlur
          = proc.enableFaceBlur ∧
       (applyBlurIfNeeded proc image dets rs bf bp copyImg blurCall).1.enablePlateBlur
          = proc.enablePlateBlur) ∧
      applyBlurIfNeeded proc image dets rs false false copyImg blurCall
          = (proc, .ok image) := by
  intro proc image dets rs bf bp copyImg blurCall
  refine ⟨?_, ?_⟩
  · unfold applyBlurIfNeeded
    by_cases h : bf || bp <;> simp [h]
  · simp [applyBlurIfNeeded]

/-! ## C7 -/

/-- C7: the detection flow fails with the distinguishable invalid-image
error when the input image has a zero dimension, fails with the
model-not-loaded error when no session is bound, and on either failure no
detection list is returned. -/
theorem detectEndpoint_error_cases :
    ∀ (session : Option (PyImage → Except Unit (List (List ℚ))))
      (confThr iouThr : ℚ) (tw th : ℕ) (img : PyImage),
      (img.height = 0 ∨ img.width = 0 →
        detectEndpoint session confThr iouThr tw th (some img) = .error .invalidImage) ∧
      (validateImage (some img) = true →
        detectEndpoint none confThr iouThr tw th (some img) = .error .modelNotLoaded) ∧
      (∀ e dets, detectEndpoint session confThr iouThr tw th (some img) = .error e →
        detectEndpoint session confThr iouThr tw th (some img) ≠ .ok dets) ∧
      (DetectError.invalidImage ≠ DetectError.processingFailure ∧
        DetectError.invalidImage ≠ DetectError.modelNotLoaded) := by
  intro session confThr iouThr tw th img
  refine ⟨?_, ?_, ?_, by decide, by decide⟩
  · intro hz
    have hv : validateImage (some img) = false := by
      unfold validateImage
      rcases hz with h | h <;> simp [h]
    simp [detectEndpoint, hv]
  · intro hv
    simp [detectEndpoint, hv, detect]
  · intro e dets he
    rw [he]
    exact fun h => Except.noConfusion h

/-- Witness for C7 at concrete inputs: a 5×0 image is rejected as
invalid, and a well-formed 4×5 image with no bound model fails with the
model-not-loaded error. -/
theorem detectEndpoint_error_cases_witness :
    detectEndpoint none 1 1 640 640 (some ⟨3, 5, 0⟩) = .error .invalidImage ∧
    detectEndpoint none 1 1 640 640 (some ⟨3, 4, 5⟩) = .error .modelNotLoaded := by
  constructor
  · exact (detectEndpoint_error_cases none 1 1 640 640 ⟨3, 5, 0⟩).1 (Or.inr rfl)
  · exact (detectEndpoint_error_cases none 1 1 640 640 ⟨3, 4, 5⟩).2.1 (by decide)

end SDD
